import Mathlib

/-!
Verification development for the snoop repository.

Part A embeds the scheduler core (package apriquot: files item.py,
item_group.py, apriqueue.py).  Part B embeds the storage core (package
snoop.doop: chunker.py, the key-value stores, and the blob store in
backend/snoop/doop/blob_store.py).

Modelling conventions:
* python floats and datetimes are modelled as rationals (seconds since the
  epoch for times);
* python dicts are modelled as association lists with at most one entry per
  key (helpers dictGet / dictSet / dictDel below);
* sources of nondeterminism in the code are passed in as explicit arguments:
  the wall-clock reading of an operation (now), the uuid4 identifiers
  (itemId, groupId), and the random.uniform jitter sample (u);
* float exponentiation with a non-integer exponent (aging_factor ** age in
  Item.effective_priority) has no exact rational counterpart, so the queue
  definitions take a function fpow standing for float ** ; concrete runs
  instantiate it with a function that agrees with ** at the exponents that
  actually occur in the run;
* python exceptions are modelled with Except / error codes; mutating
  operations that can raise return the mutated state together with the
  Except result, because python mutations performed before the raise
  persist.
-/

set_option maxHeartbeats 1000000

deriving instance DecidableEq for Except

namespace Snoop

/-- Bytes of a python bytes object, one natural number (0..255) per byte. -/
abbrev Bytes := List Nat

/-- First value bound to the key, as python dict lookup (at most one entry
per key is maintained by dictSet / dictDel). -/
def dictGet {α β : Type} [DecidableEq α] (d : List (α × β)) (k : α) : Option β :=
  match d with
  | [] => none
  | (k', v) :: rest => if k' = k then some v else dictGet rest k

/-- Python d[k] = v: replace the entry for the key, or append a new one. -/
def dictSet {α β : Type} [DecidableEq α] (d : List (α × β)) (k : α) (v : β) : List (α × β) :=
  match d with
  | [] => [(k, v)]
  | (k', v') :: rest => if k' = k then (k, v) :: rest else (k', v') :: dictSet rest k v

/-- Python del d[k]: drop the entry for the key if present. -/
def dictDel {α β : Type} [DecidableEq α] (d : List (α × β)) (k : α) : List (α × β) :=
  match d with
  | [] => []
  | (k', v') :: rest => if k' = k then rest else (k', v') :: dictDel rest k

/-- Python k in d. -/
def dictMem {α β : Type} [DecidableEq α] (d : List (α × β)) (k : α) : Bool :=
  (dictGet d k).isSome

/-- Python list.remove(x): drop the first occurrence, none when x is absent
(the code then raises ValueError). -/
def listRemove {α : Type} [DecidableEq α] (x : α) : List α → Option (List α)
  | [] => none
  | y :: ys => if y = x then some ys else (listRemove x ys).map (y :: ·)

/-! Arithmetic on ℚ written directly through numerators and denominators.
These definitions are provably equal to the field operations of ℚ (lemmas
qadd_eq .. qmax_eq below) and are used in the embedding so that concrete
runs evaluate by kernel reduction. -/

/-- Addition on ℚ (equal to + by qadd_eq). -/
def qadd (a b : ℚ) : ℚ := mkRat (a.num * b.den + b.num * a.den) (a.den * b.den)

/-- Subtraction on ℚ (equal to - by qsub_eq). -/
def qsub (a b : ℚ) : ℚ := mkRat (a.num * b.den - b.num * a.den) (a.den * b.den)

/-- Multiplication on ℚ (equal to * by qmul_eq). -/
def qmul (a b : ℚ) : ℚ := mkRat (a.num * b.num) (a.den * b.den)

/-- Inverse on ℚ, 0 for 0 (equal to ⁻¹ by qinv_eq). -/
def qinv (a : ℚ) : ℚ := mkRat (Int.sign a.num * a.den) a.num.natAbs

/-- Division on ℚ, 0 when dividing by 0 (equal to / by qdiv_eq). -/
def qdiv (a b : ℚ) : ℚ := qmul a (qinv b)

/-- Strict order on ℚ as a Bool (equal to < by qlt_iff). -/
def qlt (a b : ℚ) : Bool := a.num * b.den < b.num * a.den

/-- Order on ℚ as a Bool (equal to ≤ by qle_iff). -/
def qle (a b : ℚ) : Bool := a.num * b.den ≤ b.num * a.den

/-- Binary maximum on ℚ (equal to max by qmax_eq). -/
def qmax (a b : ℚ) : ℚ := if qlt a b then b else a

/-- Binary minimum on ℚ (equal to min by qmin_eq). -/
def qmin (a b : ℚ) : ℚ := if qlt a b then a else b

/-- Power of a rational by a natural (equal to ^ by qpow_eq). -/
def qpow (b : ℚ) : Nat → ℚ
  | 0 => 1
  | n + 1 => qmul (qpow b n) b

theorem qadd_eq (a b : ℚ) : qadd a b = a + b := by
  rw [qadd, Rat.add_def, Rat.normalize_eq_mkRat]

theorem qsub_eq (a b : ℚ) : qsub a b = a - b := by
  rw [qsub, Rat.sub_def, Rat.normalize_eq_mkRat]

theorem qmul_eq (a b : ℚ) : qmul a b = a * b := by
  rw [qmul, Rat.mul_def, Rat.normalize_eq_mkRat]

theorem qinv_eq (a : ℚ) : qinv a = a⁻¹ := by
  rw [qinv, Rat.inv_def', Rat.mkRat_eq_divInt]
  rcases lt_trichotomy a.num 0 with h | h | h
  · rw [Int.sign_eq_neg_one_of_neg h]
    have habs : (a.num.natAbs : Int) = -a.num := Int.ofNat_natAbs_of_nonpos (le_of_lt h)
    rw [habs]
    rw [show (-1 : Int) * a.den = -a.den by ring]
    rw [Rat.neg_divInt_neg]
  · rw [h]
    simp
  · rw [Int.sign_eq_one_of_pos h]
    have habs : (a.num.natAbs : Int) = a.num := Int.natAbs_of_nonneg (le_of_lt h)
    rw [habs, one_mul]

theorem qdiv_eq (a b : ℚ) : qdiv a b = a / b := by
  rw [qdiv, qmul_eq, qinv_eq, div_eq_mul_inv]

theorem qlt_iff (a b : ℚ) : qlt a b = true ↔ a < b := by
  rw [qlt, decide_eq_true_eq, Rat.lt_def]

theorem qle_iff (a b : ℚ) : qle a b = true ↔ a ≤ b := by
  rw [qle, decide_eq_true_eq, Rat.le_def]

theorem qmax_eq (a b : ℚ) : qmax a b = max a b := by
  rcases lt_trichotomy a b with h | h | h
  · rw [qmax, if_pos ((qlt_iff a b).mpr h), max_eq_right (le_of_lt h)]
  · rw [qmax, h, max_self]
    split <;> rfl
  · rw [qmax, if_neg (by rw [qlt_iff]; exact not_lt.mpr (le_of_lt h) |>.elim ∘ id),
      max_eq_left (le_of_lt h)]

theorem qmin_eq (a b : ℚ) : qmin a b = min a b := by
  rcases lt_trichotomy a b with h | h | h
  · rw [qmin, if_pos ((qlt_iff a b).mpr h), min_eq_left (le_of_lt h)]
  · rw [qmin, h, min_self]
    split <;> rfl
  · rw [qmin, if_neg (by rw [qlt_iff]; exact not_lt.mpr (le_of_lt h) |>.elim ∘ id),
      min_eq_right (le_of_lt h)]

theorem qpow_eq (b : ℚ) (n : Nat) : qpow b n = b ^ n := by
  induction n with
  | zero => rw [qpow, pow_zero]
  | succ n ih => rw [qpow, qmul_eq, ih, pow_succ]

namespace Apriquot

/-- Error codes for the exceptions raised by the apriquot package.  The
queueEmpty code distinguishes the two QueueEmptyError sites in pop. -/
inductive QueueErr where
  | itemExpired
  | invalidWindow
  | cyclicDependency
  | invalidPriority
  | invalidJitter
  | keyError (k : String)
  | queueEmptyOnEntry
  | queueEmptyNoEligible
  | valueErrorRemove
  | retryLimitExceeded
  | typeErrorNoneCompare
  | zeroDivision
  | fuelExhausted
  deriving DecidableEq, Repr

/-- item.py ItemState (an OrderedEnum). -/
inductive ItemState where
  | IMMATURE
  | READY
  | IN_PROGRESS
  | EXPIRED
  | FAILED
  | COMPLETED
  deriving DecidableEq, Repr

/-- item.py ItemSpec.  The TypedDict is total=False; a missing key takes the
default that Item.__init__ supplies via spec.get, and those defaults are
recorded here.  matures, deadline and group stay Option because their
defaults depend on the construction time / queue. -/
structure ItemSpec where
  item : String := ""
  priority : ℚ
  cost : ℚ := 1
  aging_factor : ℚ := mkRat 9 10
  matures : Option ℚ := none
  deadline : Option ℚ := none
  max_retries : Nat := 3
  backoff_factor : ℚ := 2
  base_retry_delay : ℚ := mkRat 1 10
  jitter : ℚ := mkRat 1 10
  group : Option String := none
  dependencies : List String := []
  minimum_fractional_priority : ℚ := mkRat 1 10
  deriving DecidableEq, Repr

/-- item.py Item.  matures and deadline are kept as Option so that the
truthiness tests of the source (if self.matures, if self.deadline,
if self.matures is None) can be embedded literally; Item.init always fills
both with some. -/
structure Item where
  item : String
  priority : ℚ
  minimum_fractional_priority : ℚ
  cost : ℚ
  aging_factor : ℚ
  enqueued : ℚ
  matures : Option ℚ
  deadline : Option ℚ
  max_retries : Nat
  backoff_factor : ℚ
  base_retry_delay : ℚ
  jitter : ℚ
  group : Option String
  dependencies : List String
  id : String
  retries : Nat
  last_popped : Option ℚ
  state : ItemState
  deriving DecidableEq, Repr

/-- item.py Item.update_mature_time.  u is the random.uniform(-jitter/2,
jitter/2) sample drawn in the retries > 0 branch.  The none case of matures
is unreachable (Item.init always sets matures to some; python would raise
TypeError comparing None with a datetime there). -/
def Item.updateMatureTime (it : Item) (u : ℚ) : Item :=
  if it.retries > 0 then
    let delay := qmul (qmul it.base_retry_delay (qpow it.backoff_factor it.retries)) (qadd 1 u)
    let earliestRetry := qadd (it.last_popped.getD it.enqueued) delay
    match it.matures with
    | some m => { it with matures := some (qmax m earliestRetry) }
    | none => { it with matures := some earliestRetry }
  else it

/-- item.py Item.__init__ with construction time now and generated uuid id.
self.matures is spec.get("matures") or enqueued; self.deadline defaults to
enqueued plus 52 weeks (31449600 seconds).  The final state assignment is
the source line ItemState.IMMATURE if self.matures is None else
ItemState.READY, embedded literally (its condition never holds). -/
def Item.init (spec : ItemSpec) (now : ℚ) (id : String) : Except QueueErr Item :=
  let enqueued := now
  let it : Item :=
    { item := spec.item
      priority := spec.priority
      minimum_fractional_priority := spec.minimum_fractional_priority
      cost := spec.cost
      aging_factor := spec.aging_factor
      enqueued := enqueued
      matures := some (spec.matures.getD enqueued)
      deadline := some (spec.deadline.getD (qadd enqueued (Rat.ofInt 31449600)))
      max_retries := spec.max_retries
      backoff_factor := spec.backoff_factor
      base_retry_delay := spec.base_retry_delay
      jitter := spec.jitter
      group := spec.group
      dependencies := spec.dependencies
      id := id
      retries := 0
      last_popped := none
      state := ItemState.READY }
  if qlt it.priority 0 then .error .invalidPriority
  else if qlt it.jitter 0 || qlt 1 it.jitter then .error .invalidJitter
  else
    let it := it.updateMatureTime 0
    .ok { it with state := if it.matures = none then ItemState.IMMATURE else ItemState.READY }

/-- item.py Item.effective_priority at wall-clock time now, with fpow
standing for float **. -/
def Item.effectivePriority (fpow : ℚ → ℚ → ℚ) (now : ℚ) (it : Item) : ℚ :=
  let age := qsub now it.enqueued
  let ep := qmul it.priority (fpow it.aging_factor age)
  let ep :=
    match it.deadline with
    | some d => qmul ep (qsub 1 (qdiv age (qsub d it.enqueued)))
    | none => ep
  qadd (qmul (qsub 1 it.minimum_fractional_priority) ep) it.minimum_fractional_priority

/-- item.py Item.__lt__ (used by the heaps). -/
def Item.ltB (fpow : ℚ → ℚ → ℚ) (now : ℚ) (a b : Item) : Bool :=
  qlt (a.effectivePriority fpow now) (b.effectivePriority fpow now)

/-- item.py Item.retry.  The retry counter is incremented before the limit
check, so a failed retry still leaves the counter incremented. -/
def Item.retry (it : Item) (u : ℚ) : Except QueueErr Item :=
  let it := { it with retries := it.retries + 1 }
  if it.retries > it.max_retries then .error .retryLimitExceeded
  else .ok (it.updateMatureTime u)

/-- item_group.py ItemGroupSpec with its defaults. -/
structure ItemGroupSpec where
  name : Option String := none
  max_tokens : ℚ := 10
  refill_rate : ℚ := 1
  deriving DecidableEq, Repr

/-- item_group.py ItemGroup. -/
structure ItemGroup where
  name : Option String
  max_tokens : ℚ
  refill_rate : ℚ
  id : String
  last_refill_time : ℚ
  last_pop : ℚ
  tokens : ℚ
  max_pop_rate : ℚ
  deriving DecidableEq, Repr

/-- datetime.min (with UTC tzinfo) as seconds relative to the epoch:
0001-01-01T00:00 is 62135596800 seconds before 1970-01-01T00:00. -/
def pythonDatetimeMin : ℚ := Rat.ofInt (-62135596800)

/-- item_group.py ItemGroup.__init__ with construction time now and
generated uuid id. -/
def ItemGroup.init (spec : ItemGroupSpec) (now : ℚ) (id : String) : ItemGroup :=
  { name := spec.name
    max_tokens := spec.max_tokens
    refill_rate := spec.refill_rate
    id := id
    last_refill_time := now
    last_pop := pythonDatetimeMin
    tokens := spec.max_tokens
    max_pop_rate := Rat.ofInt 1000000000 }

/-- item_group.py ItemGroup.update. -/
def ItemGroup.update (g : ItemGroup) (now : ℚ) : ItemGroup :=
  let elapsed := qsub now g.last_refill_time
  { g with
    tokens := qmin g.max_tokens (qadd g.tokens (qmul elapsed g.refill_rate))
    last_refill_time := now }

/-- item_group.py ItemGroup.consume_tokens.  The python condition
self.tokens >= quantity and 1 / elapsed < self.max_pop_rate short-circuits,
so the division (and a possible ZeroDivisionError) is only reached when the
token test holds.  last_pop is never written by the class, so elapsed is
never zero in reachable states. -/
def ItemGroup.consumeTokens (g : ItemGroup) (now : ℚ) (quantity : ℚ) :
    Except QueueErr (Bool × ItemGroup) :=
  let g := g.update now
  let elapsed := qsub now g.last_pop
  if qle quantity g.tokens then
    if elapsed = 0 then .error .zeroDivision
    else if qlt (qdiv 1 elapsed) g.max_pop_rate then
      .ok (true, { g with tokens := qsub g.tokens quantity })
    else .ok (false, g)
  else .ok (false, g)

end Apriquot

/-! The CPython heapq algorithms used by apriqueue.py (heappush, heappop,
heapify and the two sift helpers), over lists with functional updates and a
boolean comparison lt standing for the < of the elements.  The loops carry
explicit fuel; every call site passes fuel at least as large as the maximum
number of iterations the CPython loop can perform, so the fuel never runs
out. -/

namespace Heapq

variable {α : Type} [Inhabited α]

/-- The while loop of heapq._siftdown: walk from pos toward startpos moving
parents down; returns the updated list and the final pos.  pos strictly
decreases, so fuel = pos + 1 always suffices. -/
def siftdownLoop (lt : α → α → Bool) (startpos : Nat) (newitem : α) :
    Nat → List α → Nat → List α × Nat
  | 0, heap, pos => (heap, pos)
  | fuel + 1, heap, pos =>
    if pos > startpos then
      let parentpos := (pos - 1) / 2
      let parent := heap.getD parentpos default
      if lt newitem parent then
        siftdownLoop lt startpos newitem fuel (heap.set pos parent) parentpos
      else (heap, pos)
    else (heap, pos)

/-- heapq._siftdown. -/
def siftdown (lt : α → α → Bool) (heap : List α) (startpos pos : Nat) : List α :=
  let newitem := heap.getD pos default
  let (h, p) := siftdownLoop lt startpos newitem (pos + 1) heap pos
  h.set p newitem

/-- The while loop of heapq._siftup: bubble the smaller child up until
hitting a leaf.  pos at least doubles every iteration, so fuel = length + 1
always suffices. -/
def siftupLoop (lt : α → α → Bool) : Nat → List α → Nat → List α × Nat
  | 0, heap, pos => (heap, pos)
  | fuel + 1, heap, pos =>
    let endpos := heap.length
    let childpos := 2 * pos + 1
    if childpos < endpos then
      let rightpos := childpos + 1
      let childpos :=
        if rightpos < endpos ∧ ¬ lt (heap.getD childpos default) (heap.getD rightpos default)
        then rightpos else childpos
      siftupLoop lt fuel (heap.set pos (heap.getD childpos default)) childpos
    else (heap, pos)

/-- heapq._siftup. -/
def siftup (lt : α → α → Bool) (heap : List α) (pos : Nat) : List α :=
  let startpos := pos
  let newitem := heap.getD pos default
  let (h, p) := siftupLoop lt (heap.length + 1) heap pos
  siftdown lt (h.set p newitem) startpos p

/-- heapq.heappush. -/
def heappush (lt : α → α → Bool) (heap : List α) (item : α) : List α :=
  siftdown lt (heap ++ [item]) 0 heap.length

/-- heapq.heappop; none models the IndexError on an empty list. -/
def heappop (lt : α → α → Bool) (heap : List α) : Option (α × List α) :=
  match heap.getLast? with
  | none => none
  | some lastelt =>
    let rest := heap.dropLast
    if rest.isEmpty then some (lastelt, [])
    else some (rest.getD 0 default, siftup lt (rest.set 0 lastelt) 0)

/-- heapq.heapify. -/
def heapify (lt : α → α → Bool) (heap : List α) : List α :=
  ((List.range (heap.length / 2)).reverse).foldl (fun h i => siftup lt h i) heap

end Heapq

namespace Apriquot

open Heapq

/-- Junk item used to total list indexing; never reached because the heaps
only hold ids present in item_map. -/
def defaultItem : Item :=
  { item := "", priority := 0, minimum_fractional_priority := 0, cost := 0
    aging_factor := 0, enqueued := 0, matures := none, deadline := none
    max_retries := 0, backoff_factor := 0, base_retry_delay := 0, jitter := 0
    group := none, dependencies := [], id := "", retries := 0
    last_popped := none, state := ItemState.READY }

instance : Inhabited Item := ⟨defaultItem⟩

/-- The Item object an id refers to (the heaps of apriqueue.py store the
objects themselves; here they store ids resolved through item_map, which
models the aliasing between the heaps and the map). -/
def getItem (itemMap : List (String × Item)) (i : String) : Item :=
  (dictGet itemMap i).getD defaultItem

/-- Comparison of priority-heap entries: Item.__lt__ through the map. -/
def idLt (fpow : ℚ → ℚ → ℚ) (now : ℚ) (itemMap : List (String × Item))
    (a b : String) : Bool :=
  Item.ltB fpow now (getItem itemMap a) (getItem itemMap b)

/-- Comparison of (datetime, Item) tuples in the maturation and expiration
heaps: python tuple ordering compares the datetimes first and falls back to
Item.__lt__ on equal datetimes. -/
def pairLt (fpow : ℚ → ℚ → ℚ) (now : ℚ) (itemMap : List (String × Item))
    (a b : ℚ × String) : Bool :=
  if a.1 = b.1 then idLt fpow now itemMap a.2 b.2 else qlt a.1 b.1

/-- apriqueue.py ApriQueue state.  new_item_event, lock and logger carry no
queue semantics and are omitted. -/
structure ApriQueue where
  priority_heap : List String
  maturation_heap : List (ℚ × String)
  expiration_heap : List (ℚ × String)
  item_map : List (String × Item)
  groups : List (String × ItemGroup)
  group_defaults : ItemGroupSpec
  completed_items : List String
  failed_items : List String
  default_group_id : Option String
  deriving DecidableEq, Repr

/-- ApriQueue.__init__ (group_defaults is ItemGroupSpec(max_tokens=10,
refill_rate=1.0), which coincides with the ItemGroupSpec defaults). -/
def ApriQueue.initial : ApriQueue :=
  { priority_heap := [], maturation_heap := [], expiration_heap := []
    item_map := [], groups := [], group_defaults := {}
    completed_items := [], failed_items := [], default_group_id := none }

/-- ApriQueue.new_group at time now with generated uuid gid; spec is the
merge self.group_defaults | kwargs already performed. -/
def ApriQueue.newGroup (q : ApriQueue) (spec : ItemGroupSpec) (now : ℚ)
    (gid : String) : ApriQueue × String :=
  let g := ItemGroup.init spec now gid
  ({ q with groups := dictSet q.groups g.id g }, g.id)

/-- The ApriQueue.default_group property: lazily creates the default group
on first use. -/
def ApriQueue.resolveDefaultGroup (q : ApriQueue) (now : ℚ) (gid : String) :
    ApriQueue × String :=
  match q.default_group_id with
  | some g => (q, g)
  | none =>
    let (q, g) := q.newGroup {} now gid
    ({ q with default_group_id := some g }, g)

/-- State of the depth-first search of ApriQueue.has_cyclic_dependency: the
visited and stack sets, as lists. -/
structure DfsState where
  visited : List String
  stack : List String
  deriving DecidableEq, Repr

mutual

/-- The inner function visit of ApriQueue.has_cyclic_dependency.  The
keyError case is the python KeyError from self.item_map[node].  Both
functions consume one unit of fuel per call (keeping the recursion
structural on fuel, so that it evaluates in the kernel); the budget
computed by dfsFuelBudget exceeds the deepest call nesting any input can
produce, so the fuelExhausted case is unreachable from
hasCyclicDependency. -/
def dfsVisit (itemMap : List (String × Item)) :
    Nat → String → DfsState → Except QueueErr (Bool × DfsState)
  | 0, _, _ => .error .fuelExhausted
  | fuel + 1, node, st =>
    if node ∈ st.stack then .ok (true, st)
    else if node ∈ st.visited then .ok (false, st)
    else
      let st' : DfsState := { visited := node :: st.visited, stack := node :: st.stack }
      match dictGet itemMap node with
      | none => .error (.keyError node)
      | some it =>
        match dfsVisitList itemMap fuel it.dependencies st' with
        | .error e => .error e
        | .ok (true, st2) => .ok (true, st2)
        | .ok (false, st2) => .ok (false, { st2 with stack := st2.stack.erase node })

/-- The for-loop over dependencies inside visit (and the top-level loop of
has_cyclic_dependency). -/
def dfsVisitList (itemMap : List (String × Item)) :
    Nat → List String → DfsState → Except QueueErr (Bool × DfsState)
  | 0, _, _ => .error .fuelExhausted
  | _ + 1, [], st => .ok (false, st)
  | fuel + 1, dep :: deps, st =>
    match dfsVisit itemMap fuel dep st with
    | .error e => .error e
    | .ok (true, st') => .ok (true, st')
    | .ok (false, st') => dfsVisitList itemMap fuel deps st'

end

/-- A call-depth budget for the search: every call of dfsVisit or
dfsVisitList consumes one unit, the nesting is bounded by the top-level
dependency list plus, for each map entry entered at most once, its
dependency list, and the budget dominates that bound with plenty of slack
(any budget at least the maximal nesting gives the same result). -/
def dfsFuelBudget (itemMap : List (String × Item)) (dependencies : List String) : Nat :=
  let T := (itemMap.map (fun e => e.2.dependencies.length + 2)).sum + 2
  (itemMap.length + 1) * T + dependencies.length + 2

/-- ApriQueue.has_cyclic_dependency. -/
def hasCyclicDependency (itemMap : List (String × Item)) (itemId : String)
    (dependencies : List String) : Except QueueErr Bool :=
  let st : DfsState := { visited := [itemId], stack := [itemId] }
  match dfsVisitList itemMap (dfsFuelBudget itemMap dependencies) dependencies st with
  | .error e => .error e
  | .ok (b, _) => .ok b

/-- ApriQueue.push at time now, with the uuid generated for the new item
(itemId) and the uuid that new_group would generate if the lazy default
group has to be created (freshGroupId).  Mutating operations return the
mutated queue next to the Except result, because the default group creation
precedes the validation raises in the source.  The heap pushes compare
through the map already containing the new item, as the source compares the
new Item object itself. -/
def ApriQueue.push (fpow : ℚ → ℚ → ℚ) (q : ApriQueue) (spec : ItemSpec)
    (now : ℚ) (itemId : String) (freshGroupId : String) :
    ApriQueue × Except QueueErr String :=
  let (q, spec) :=
    match spec.group with
    | some _ => (q, spec)
    | none =>
      let (q, g) := q.resolveDefaultGroup now freshGroupId
      (q, { spec with group := some g })
  match Item.init spec now itemId with
  | .error e => (q, .error e)
  | .ok newItem =>
    if newItem.deadline.isSome ∧ qlt (newItem.deadline.getD 0) now then
      (q, .error .itemExpired)
    else if newItem.matures.isSome ∧ newItem.deadline.isSome ∧
        qlt (newItem.deadline.getD 0) (newItem.matures.getD 0) then
      (q, .error .invalidWindow)
    else
      match hasCyclicDependency q.item_map newItem.id newItem.dependencies with
      | .error e => (q, .error e)
      | .ok true => (q, .error .cyclicDependency)
      | .ok false =>
        let m' := dictSet q.item_map newItem.id newItem
        let q :=
          match newItem.deadline with
          | some d =>
            { q with expiration_heap := heappush (pairLt fpow now m') q.expiration_heap (d, newItem.id) }
          | none => q
        let q :=
          if newItem.matures.isSome ∧ qlt now (newItem.matures.getD 0) then
            { q with maturation_heap := heappush (pairLt fpow now m') q.maturation_heap (newItem.matures.getD 0, newItem.id) }
          else
            { q with priority_heap := heappush (idLt fpow now m') q.priority_heap newItem.id }
        ({ q with item_map := m' }, .ok newItem.id)

/-- ApriQueue.retry_item at time now with jitter sample u.  The python
KeyError from self.item_map[item_id] surfaces when the id is unknown.  The
re-insertion branches on the truthiness of item.matures (a datetime is
always truthy, so the priority-heap branch is dead code). -/
def ApriQueue.retryItem (fpow : ℚ → ℚ → ℚ) (q : ApriQueue) (itemId : String)
    (now u : ℚ) : ApriQueue × Except QueueErr Bool :=
  match dictGet q.item_map itemId with
  | none => (q, .error (.keyError itemId))
  | some it =>
    if it.retries ≥ it.max_retries then (q, .ok false)
    else
      match it.retry u with
      | .error e =>
        ({ q with item_map := dictSet q.item_map itemId { it with retries := it.retries + 1 } },
         .error e)
      | .ok it' =>
        let m' := dictSet q.item_map itemId it'
        match it'.matures with
        | some m =>
          ({ q with item_map := m'
                    maturation_heap := heappush (pairLt fpow now m') q.maturation_heap (m, itemId) },
           .ok true)
        | none =>
          ({ q with item_map := m'
                    priority_heap := heappush (idLt fpow now m') q.priority_heap itemId },
           .ok true)

/-- ApriQueue._move_matured_items_to_priority_heap.  Each loop iteration
removes one entry from the maturation heap (the push-back case returns), so
fuel = maturation_heap.length + 1 always suffices. -/
def ApriQueue.moveMatured (fpow : ℚ → ℚ → ℚ) (q : ApriQueue) (now : ℚ) :
    Nat → ApriQueue
  | 0 => q
  | fuel + 1 =>
    match heappop (pairLt fpow now q.item_map) q.maturation_heap with
    | none => q
    | some ((mt, iid), rest) =>
      let it := getItem q.item_map iid
      if qlt now mt then
        let m' := dictSet q.item_map iid { it with state := ItemState.IMMATURE }
        { q with item_map := m'
                 maturation_heap := heappush (pairLt fpow now m') rest (mt, iid) }
      else
        let m' := dictSet q.item_map iid { it with state := ItemState.READY }
        ApriQueue.moveMatured fpow
          { q with item_map := m'
                   maturation_heap := rest
                   priority_heap := heappush (idLt fpow now m') q.priority_heap iid }
          now fuel

/-- ApriQueue._remove_expired_items.  The valueErrorRemove case is the
python ValueError raised by self.priority_heap.remove(item) when the item
is not in the priority heap; the state mutated so far persists.  fuel =
expiration_heap.length + 1 always suffices. -/
def ApriQueue.removeExpired (fpow : ℚ → ℚ → ℚ) (q : ApriQueue) (now : ℚ) :
    Nat → ApriQueue × Option QueueErr
  | 0 => (q, none)
  | fuel + 1 =>
    match heappop (pairLt fpow now q.item_map) q.expiration_heap with
    | none => (q, none)
    | some ((et, iid), rest) =>
      let it := getItem q.item_map iid
      if qlt now et then
        let m' := dictSet q.item_map iid { it with state := ItemState.READY }
        ({ q with item_map := m'
                  expiration_heap := heappush (pairLt fpow now m') rest (et, iid) }, none)
      else
        let m' := dictSet q.item_map iid { it with state := ItemState.EXPIRED }
        match listRemove iid q.priority_heap with
        | none =>
          ({ q with item_map := m', expiration_heap := rest }, some .valueErrorRemove)
        | some ph =>
          ApriQueue.removeExpired fpow
            { q with item_map := m', expiration_heap := rest, priority_heap := ph }
            now fuel

/-- The while loop of ApriQueue._pop_next_eligible_item.  lastItem models
the python variable item, which is only reset to None in the
insufficient-tokens branch: when the loop drains the heap after a continue
taken in the expired / immature / unmet-dependencies branches, the function
falls through with that item still selected.  Returns the queue, the
accumulated to_requeue list, and ok lastItem on normal exit (error for the
exceptions raised inside the loop, which skip the requeue step).  Each
iteration removes one entry from the priority heap, so fuel =
priority_heap.length + 1 always suffices. -/
def ApriQueue.popNextLoop (fpow : ℚ → ℚ → ℚ) (q : ApriQueue) (now : ℚ) :
    Option String → List String → Nat →
    ApriQueue × List String × Except QueueErr (Option String)
  | lastItem, toRequeue, 0 => (q, toRequeue, .ok lastItem)
  | lastItem, toRequeue, fuel + 1 =>
    match heappop (idLt fpow now q.item_map) q.priority_heap with
    | none => (q, toRequeue, .ok lastItem)
    | some (iid, rest) =>
      let q := { q with priority_heap := rest }
      let it := getItem q.item_map iid
      if it.state = ItemState.EXPIRED then
        ApriQueue.popNextLoop fpow q now (some iid) toRequeue fuel
      else
        let step2 : ApriQueue × Option Item × Option QueueErr :=
          if it.state = ItemState.IMMATURE then
            match it.matures with
            | none => (q, none, some .typeErrorNoneCompare)
            | some m =>
              if qlt now m then
                let q := { q with maturation_heap := heappush (pairLt fpow now q.item_map) q.maturation_heap (m, iid) }
                (q, none, none)
              else
                let it' := { it with state := ItemState.READY }
                ({ q with item_map := dictSet q.item_map iid it' }, some it', none)
          else (q, some it, none)
        match step2 with
        | (q, _, some e) => (q, toRequeue, .error e)
        | (q, none, none) => ApriQueue.popNextLoop fpow q now (some iid) toRequeue fuel
        | (q, some it, none) =>
          if it.dependencies.any (fun dep => ¬ dep ∈ q.completed_items) then
            ApriQueue.popNextLoop fpow q now (some iid) (toRequeue ++ [iid]) fuel
          else
            match it.group with
            | none => (q, toRequeue, .ok (some iid))
            | some gkey =>
              match dictGet q.groups gkey with
              | none => (q, toRequeue, .ok (some iid))
              | some grp =>
                match grp.consumeTokens now it.cost with
                | .error e => (q, toRequeue, .error e)
                | .ok (true, grp') =>
                  ({ q with groups := dictSet q.groups gkey grp' }, toRequeue, .ok (some iid))
                | .ok (false, grp') =>
                  ApriQueue.popNextLoop fpow
                    { q with groups := dictSet q.groups gkey grp' } now
                    none (toRequeue ++ [iid]) fuel

/-- ApriQueue._pop_next_eligible_item. -/
def ApriQueue.popNextEligible (fpow : ℚ → ℚ → ℚ) (q : ApriQueue) (now : ℚ) :
    ApriQueue × Except QueueErr Item :=
  let (q, toRequeue, r) := q.popNextLoop fpow now none [] (q.priority_heap.length + 1)
  match r with
  | .error e => (q, .error e)
  | .ok res =>
    let q := toRequeue.foldl
      (fun q e => { q with priority_heap := heappush (idLt fpow now q.item_map) q.priority_heap e }) q
    match res with
    | none => (q, .error .queueEmptyNoEligible)
    | some iid =>
      let it := getItem q.item_map iid
      let it' := { it with state := ItemState.IN_PROGRESS, last_popped := some now }
      ({ q with item_map := dictSet q.item_map iid it' }, .ok it')

/-- ApriQueue.pop at time now (all datetime.now readings of one pop are
idealised to the single instant now). -/
def ApriQueue.pop (fpow : ℚ → ℚ → ℚ) (q : ApriQueue) (now : ℚ) :
    ApriQueue × Except QueueErr Item :=
  if q.priority_heap.isEmpty ∧ q.maturation_heap.isEmpty then
    (q, .error .queueEmptyOnEntry)
  else
    let q := q.moveMatured fpow now (q.maturation_heap.length + 1)
    match q.removeExpired fpow now (q.expiration_heap.length + 1) with
    | (q, some e) => (q, .error e)
    | (q, none) =>
      let q := { q with priority_heap := heapify (idLt fpow now q.item_map) q.priority_heap }
      q.popNextEligible fpow now

end Apriquot

namespace Doop

/-- Error codes for the blob store (blob_store.py).  keyErrorChunkId is a
python KeyError from a chunk-id dict lookup; typeErrorJoinNone is the
TypeError from joining bytes with a None returned by KeyValueStore.get. -/
inductive BlobErr where
  | blobExists
  | blobNotFound
  | blobCorrupted
  | keyErrorChunkId
  | typeErrorJoinNone
  deriving DecidableEq, Repr

/-- The worker of pyDedup: seen collects the elements already kept. -/
def pyDedupGo {α : Type} [DecidableEq α] : List α → List α → List α
  | [], _ => []
  | a :: as, seen =>
    if a ∈ seen then pyDedupGo as seen else a :: pyDedupGo as (a :: seen)

/-- First-occurrence deduplication, modelling iteration over a python set
built from a list (the set iteration order is unspecified in python; only
the membership matters to the store). -/
def pyDedup {α : Type} [DecidableEq α] (l : List α) : List α :=
  pyDedupGo l []

section KV

variable {κ : Type} [DecidableEq κ]

/-- key_value_store.py KeyValueStore state: the value dict and the
reference-count defaultdict(int).  The compressor is passed to the
operations that use it. -/
structure KVStore (κ : Type) where
  store : List (κ × Bytes)
  reference_count : List (κ × Int)
  deriving DecidableEq, Repr

/-- defaultdict(int) lookup. -/
def rcGet (rc : List (κ × Int)) (k : κ) : Int :=
  (dictGet rc k).getD 0

/-- InMemoryKeyValueStore._put (identical to DictKeyValueStore._put): a put
of an existing key only increments the reference count and keeps the stored
value. -/
def KVStore.putRaw (kv : KVStore κ) (key : κ) (value : Bytes) : KVStore κ :=
  if dictMem kv.store key then
    { kv with reference_count := dictSet kv.reference_count key (rcGet kv.reference_count key + 1) }
  else
    { store := dictSet kv.store key value
      reference_count := dictSet kv.reference_count key 1 }

/-- KeyValueStore.put: compress, then _put. -/
def KVStore.put (compress : Bytes → Bytes) (kv : KVStore κ) (key : κ) (value : Bytes) : KVStore κ :=
  kv.putRaw key (compress value)

/-- KeyValueStore.get: _get, decompressed when not None. -/
def KVStore.get (decompress : Bytes → Bytes) (kv : KVStore κ) (key : κ) : Option Bytes :=
  (dictGet kv.store key).map decompress

/-- InMemoryKeyValueStore._delete: decrement and drop the entry at zero. -/
def KVStore.deleteKey (kv : KVStore κ) (key : κ) : KVStore κ :=
  if dictMem kv.store key then
    let c := rcGet kv.reference_count key - 1
    if c = 0 then
      { store := dictDel kv.store key
        reference_count := dictDel kv.reference_count key }
    else { kv with reference_count := dictSet kv.reference_count key c }
  else kv

/-- KeyValueStore.put_batch. -/
def KVStore.putBatch (compress : Bytes → Bytes) (kv : KVStore κ)
    (items : List (κ × Bytes)) : KVStore κ :=
  items.foldl (fun kv kvp => kv.put compress kvp.1 kvp.2) kv

/-- KeyValueStore.get_batch. -/
def KVStore.getBatch (decompress : Bytes → Bytes) (kv : KVStore κ) (keys : List κ) :
    List (Option Bytes) :=
  keys.map (kv.get decompress)

/-- KeyValueStore.delete_batch. -/
def KVStore.deleteBatch (kv : KVStore κ) (keys : List κ) : KVStore κ :=
  keys.foldl (fun kv k => kv.deleteKey k) kv

/-- blob_store.py Chunk row of the metadata database: autoincrement primary
key and unique chunk hash.  (The unused blobs JSON column is omitted.) -/
structure ChunkRow (κ : Type) where
  id : Nat
  hash : κ
  deriving DecidableEq, Repr

/-- blob_store.py Blob row: identifier, full-blob hash and the ordered list
of chunk row ids.  (The constant version and meta columns are omitted.) -/
structure BlobRow (κ H : Type) where
  identifier : String
  hash : H
  chunks : List Nat
  deriving DecidableEq, Repr

/-- The whole blob-store state: the key-value backend, the two metadata
tables, and the autoincrement counter for chunk row ids. -/
structure DoopState (κ H : Type) where
  kv : KVStore κ
  blobs : List (BlobRow κ H)
  chunkRows : List (ChunkRow κ)
  nextChunkId : Nat
  deriving DecidableEq, Repr

variable {H : Type} [DecidableEq H]

/-- A fresh store over an empty database. -/
def DoopState.initial : DoopState κ H :=
  { kv := { store := [], reference_count := [] }, blobs := [], chunkRows := [], nextChunkId := 1 }

/-- BlobStore._get_chunk_id_map lookup: the dict comprehension keeps the
last row for a hash (rows have unique hashes in every reachable state). -/
def chunkIdOfHash (rows : List (ChunkRow κ)) (k : κ) : Option Nat :=
  ((rows.filter (fun r => r.hash = k)).getLast?).map (fun r => r.id)

/-- BlobStore._get_chunk_key_map lookup (id to hash). -/
def chunkHashOfId (rows : List (ChunkRow κ)) (cid : Nat) : Option κ :=
  ((rows.filter (fun r => r.id = cid)).getLast?).map (fun r => r.hash)

/-- b"".join over the results of get_batch; none is the TypeError raised by
join when a get returned None. -/
def joinOpt : List (Option Bytes) → Option Bytes
  | [] => some []
  | v :: vs =>
    match v, joinOpt vs with
    | some b, some rest => some (b ++ rest)
    | _, _ => none

variable (chunker : Bytes → List (κ × Bytes)) (hashB : Bytes → H)
variable (compress decompress : Bytes → Bytes)

/-- backend/snoop/doop/blob_store.py BlobStore.store_blob.  chunker is the
configured Chunker.chunk_blob, hashB the sha256 hexdigest of the whole
blob, compress the compressor of the key-value store. -/
def storeBlob (st : DoopState κ H) (identifier : String) (blobData : Bytes) :
    Except BlobErr (DoopState κ H) :=
  let blobHash := hashB blobData
  if st.blobs.any (fun b => b.identifier = identifier) then .error .blobExists
  else
    let chunkItems := chunker blobData
    let kv := st.kv.putBatch compress chunkItems
    let chunkKeys := chunkItems.map Prod.fst
    let newKeys := (pyDedup chunkKeys).filter
      (fun k => ¬ st.chunkRows.any (fun r => r.hash = k))
    let newRows := (newKeys.zip (List.range newKeys.length)).map
      (fun p => ChunkRow.mk (st.nextChunkId + p.2) p.1)
    let rows := st.chunkRows ++ newRows
    match chunkKeys.mapM (chunkIdOfHash rows) with
    | none => .error .keyErrorChunkId
    | some blobChunks =>
      .ok { kv := kv
            blobs := st.blobs ++ [⟨identifier, blobHash, blobChunks⟩]
            chunkRows := rows
            nextChunkId := st.nextChunkId + newRows.length }

/-- backend/snoop/doop/blob_store.py BlobStore.retrieve_blob. -/
def retrieveBlob (st : DoopState κ H) (identifier : String) : Except BlobErr Bytes :=
  match st.blobs.find? (fun b => b.identifier = identifier) with
  | none => .error .blobNotFound
  | some blob =>
    match blob.chunks.mapM (chunkHashOfId st.chunkRows) with
    | none => .error .keyErrorChunkId
    | some keys =>
      match joinOpt (st.kv.getBatch decompress keys) with
      | none => .error .typeErrorJoinNone
      | some blobData =>
        if blob.hash ≠ hashB blobData then .error .blobCorrupted
        else .ok blobData

/-- backend/snoop/doop/blob_store.py BlobStore.delete_blob.  The chunk keys
for the delete_batch come from the query select Chunk.hash where Chunk.id
in blob.chunks: one key per matching chunk row, so a chunk id repeated in
blob.chunks contributes its key only once. -/
def deleteBlob (st : DoopState κ H) (identifier : String) :
    Except BlobErr (DoopState κ H) :=
  match st.blobs.find? (fun b => b.identifier = identifier) with
  | none => .error .blobNotFound
  | some blob =>
    let chunkKeys := (st.chunkRows.filter (fun r => r.id ∈ blob.chunks)).map (fun r => r.hash)
    let blobs := st.blobs.eraseP (fun b => b.identifier = identifier)
    .ok { st with blobs := blobs, kv := st.kv.deleteBatch chunkKeys }

/-- States reachable from the fresh store by successful store_blob and
delete_blob calls. -/
inductive Reachable : DoopState κ H → Prop where
  | initial : Reachable DoopState.initial
  | store {st st' : DoopState κ H} {id : String} {data : Bytes} :
      Reachable st → storeBlob chunker hashB compress st id data = .ok st' →
      Reachable st'
  | delete {st st' : DoopState κ H} {id : String} :
      Reachable st → deleteBlob st id = .ok st' → Reachable st'

/-- States reachable when every stored blob has a duplicate-free chunk key
list (the restriction of the amended claim C3). -/
inductive ReachableDF : DoopState κ H → Prop where
  | initial : ReachableDF DoopState.initial
  | store {st st' : DoopState κ H} {id : String} {data : Bytes} :
      ReachableDF st → ((chunker data).map Prod.fst).Nodup →
      storeBlob chunker hashB compress st id data = .ok st' →
      ReachableDF st'
  | delete {st st' : DoopState κ H} {id : String} :
      ReachableDF st → deleteBlob st id = .ok st' → ReachableDF st'

end KV

section Chunkers

variable {κ : Type}

/-- The worker of fixedChunks; fuel bounds the number of slices, and
blob.length + 1 always suffices since every step drops at least one byte. -/
def fixedChunksGo (chunk_size : Nat) : Nat → Bytes → List Bytes
  | 0, _ => []
  | fuel + 1, blob =>
    if chunk_size = 0 ∨ blob.isEmpty then []
    else blob.take chunk_size :: fixedChunksGo chunk_size fuel (blob.drop chunk_size)

/-- The slicing loop of chunker.py FixedSizeChunker.chunk_blob:
blob[i : i + chunk_size] for i in range(0, len(blob), chunk_size).  A zero
chunk_size raises ValueError in python range and yields [] here. -/
def fixedChunks (chunk_size : Nat) (blob : Bytes) : List Bytes :=
  fixedChunksGo chunk_size (blob.length + 1) blob

/-- chunker.py FixedSizeChunker.chunk_blob, with hashC standing for the
static hash_chunk (hex sha256 of the chunk bytes). -/
def fixedSizeChunkBlob (hashC : Bytes → κ) (chunk_size : Nat) (blob : Bytes) :
    List (κ × Bytes) :=
  (fixedChunks chunk_size blob).map (fun c => (hashC c, c))

/-- The scan loop of chunker.py FastContentDefinedChunker.chunk_blob.
gearTable is the 256-entry table of random 32-bit gear values; gear updates
are (gear << 1) + table[byte] masked to 32 bits, and the cut test is
gear & mask == 0.  i walks the blob; chunkStart and gear are the current
chunk origin and rolling hash; acc accumulates emitted chunks. -/
def cdcGo (gearTable : Nat → Nat) (minS maxS mask : Nat) (blob : Bytes) :
    Nat → Nat → Nat → Nat → List Bytes → List Bytes
  | 0, _, chunkStart, _, acc =>
    acc ++ (if chunkStart < blob.length then [blob.drop chunkStart] else [])
  | fuel + 1, i, chunkStart, gear, acc =>
    let gear' := (gear * 2 + gearTable (blob.getD i 0)) % 2 ^ 32
    if minS ≤ i - chunkStart ∧ (gear' &&& mask = 0 ∨ maxS ≤ i - chunkStart) then
      let e := min i (chunkStart + maxS)
      cdcGo gearTable minS maxS mask blob fuel (i + 1) e 0
        (acc ++ [(blob.drop chunkStart).take (e - chunkStart)])
    else cdcGo gearTable minS maxS mask blob fuel (i + 1) chunkStart gear' acc

/-- The for-loop of chunker.py FastContentDefinedChunker.chunk_blob over
i in range(len(blob)), with the loop counter carried as the remaining
iteration count fuel = blob.length - i (the fuel-0 case is the loop exit,
followed by the trailing-remainder append). -/
def cdcLoop (gearTable : Nat → Nat) (minS maxS mask : Nat) (blob : Bytes)
    (i chunkStart gear : Nat) (acc : List Bytes) : List Bytes :=
  cdcGo gearTable minS maxS mask blob (blob.length - i) i chunkStart gear acc

/-- chunker.py FastContentDefinedChunker.chunk_blob (the avg_chunk_size
field is stored but unused by chunk_blob). -/
def fastCDCChunkBlob (hashC : Bytes → κ) (gearTable : Nat → Nat)
    (minS maxS mask : Nat) (blob : Bytes) : List (κ × Bytes) :=
  (cdcLoop gearTable minS maxS mask blob 0 0 0 []).map (fun c => (hashC c, c))

end Chunkers

/-- Structural invariant of the metadata database and value dict holding in
every reachable blob-store state: chunk row ids are unique and below the
autoincrement counter, chunk hashes are unique, and every stored value is
the compression of a byte string hashing to its key. -/
def BaseInv {κ H : Type} [DecidableEq κ]
    (hashC : Bytes → κ) (compress : Bytes → Bytes) (st : DoopState κ H) : Prop :=
  (st.chunkRows.map (fun r => r.id)).Nodup ∧
  (∀ r ∈ st.chunkRows, r.id < st.nextChunkId) ∧
  (st.chunkRows.map (fun r => r.hash)).Nodup ∧
  (∀ p ∈ st.kv.store, ∃ c : Bytes, hashC c = p.1 ∧ p.2 = compress c)

/-- The number of live blobs whose chunk id list references the chunk row
hashing to k: the occurrence count of a chunk across all live blobs in the
sense of the amended claim (each blob's chunk key list is duplicate free,
so a blob contributes at most one occurrence). -/
def keyRefs {κ H : Type} [DecidableEq κ] (st : DoopState κ H) (k : κ) : Nat :=
  (st.blobs.filter
    (fun b => b.chunks.any (fun cid => chunkHashOfId st.chunkRows cid = some k))).length

/-- The deduplication and reference-count invariant of claim C3 (amended):
the value dict holds at most one entry per key, a key is present exactly
when some live blob references its chunk, and its reference count equals
the number of referencing blobs. -/
def DedupInv {κ H : Type} [DecidableEq κ] (st : DoopState κ H) : Prop :=
  (st.kv.store.map Prod.fst).Nodup ∧
  (∀ k, dictMem st.kv.store k = true ↔ 0 < keyRefs st k) ∧
  (∀ k, rcGet st.kv.reference_count k = (keyRefs st k : Int))

/-- Bookkeeping facts carried through the induction for claim C3: the
reference-count dict has unique keys, chunk rows have unique ids below the
autoincrement counter and unique hashes, and every chunk id stored in a
blob row is the id of some chunk row. -/
def C3Aux {κ H : Type} [DecidableEq κ] (st : DoopState κ H) : Prop :=
  (st.kv.reference_count.map Prod.fst).Nodup ∧
  (st.chunkRows.map (fun r => r.id)).Nodup ∧
  (∀ r ∈ st.chunkRows, r.id < st.nextChunkId) ∧
  (st.chunkRows.map (fun r => r.hash)).Nodup ∧
  (∀ b ∈ st.blobs, ∀ cid ∈ b.chunks, ∃ r ∈ st.chunkRows, r.id = cid)

end Doop

/-! Concrete runs used by the claim theorems.  fpowD stands for the float
** operation at the two exponents (age 0 and age 1 seconds) that occur in
these runs; float ** is exact there (b ** 0 = 1 and b ** 1 = b). -/

namespace Runs

open Apriquot Doop

/-- Float ** at the exponents arising in the concrete runs below. -/
def fpowD : ℚ → ℚ → ℚ := fun b e => if e = 0 then 1 else if e = 1 then b else 0

/-! Claim C1 run: three pushes with priorities 1.0, 0.5, 2.0 at time 0 and
three pops at time 0 (the seed scenario of the spec). -/

def c1p1 := ApriQueue.push fpowD ApriQueue.initial { priority := 1 } 0 "i1" "g1"
def c1p2 := ApriQueue.push fpowD c1p1.1 { priority := mkRat 1 2 } 0 "i2" "gX"
def c1p3 := ApriQueue.push fpowD c1p2.1 { priority := 2 } 0 "i3" "gX"
def c1pop1 := ApriQueue.pop fpowD c1p3.1 0
def c1pop2 := ApriQueue.pop fpowD c1pop1.1 0
def c1pop3 := ApriQueue.pop fpowD c1pop2.1 0

/-! Claim C5 run: the token-bucket seed scenario, group with max_tokens 2
and refill_rate 1/s, three cost-1 items, pops at times 0, 0, 0 and 1. -/

def c5g := ApriQueue.newGroup ApriQueue.initial
  { name := some "test_group", max_tokens := 2, refill_rate := 1 } 0 "g1"
def c5p1 := ApriQueue.push fpowD c5g.1 { priority := 1, group := some "g1" } 0 "i1" "gX"
def c5p2 := ApriQueue.push fpowD c5p1.1 { priority := 1, group := some "g1" } 0 "i2" "gX"
def c5p3 := ApriQueue.push fpowD c5p2.1 { priority := 1, group := some "g1" } 0 "i3" "gX"
def c5pop1 := ApriQueue.pop fpowD c5p3.1 0
def c5pop2 := ApriQueue.pop fpowD c5pop1.1 0
def c5pop3 := ApriQueue.pop fpowD c5pop2.1 0
def c5pop4 := ApriQueue.pop fpowD c5pop3.1 1

/-! Claim C7 run: an item with a deadline is popped successfully, a second
item keeps the queue non-empty, and a pop after the deadline reaches the
expired-item sweep with the first item absent from the priority heap. -/

def c7p1 := ApriQueue.push fpowD ApriQueue.initial { priority := 1, deadline := some 1 } 0 "i1" "g1"
def c7pop1 := ApriQueue.pop fpowD c7p1.1 0
def c7p2 := ApriQueue.push fpowD c7pop1.1 { priority := 1 } 0 "i2" "gX"
def c7pop2 := ApriQueue.pop fpowD c7p2.1 2

/-! Claim C9 counterexample run: a push whose deadline equals the push
time. -/

def c9p := ApriQueue.push fpowD ApriQueue.initial { priority := 1, deadline := some 0 } 0 "i1" "g1"

/-! Claim C4 counterexample run: push with base_retry_delay 0 at time 0,
pop at time 0, then retry_item at time 0 with jitter sample 0: the
recomputed maturation is 0, which is not in the future, yet the item is
re-inserted into the maturation heap and not the priority heap. -/

def c4p := ApriQueue.push fpowD ApriQueue.initial { priority := 1, base_retry_delay := 0 } 0 "i1" "g1"
def c4pop := ApriQueue.pop fpowD c4p.1 0
def c4r := ApriQueue.retryItem fpowD c4pop.1 "i1" 0 0

/-! Claim C3 counterexample run: a blob whose two chunks are equal bytes
(fixed-size-1 chunker over [0, 0]) is stored and then deleted; store_blob
increments the chunk reference count once per occurrence, delete_blob
decrements once per distinct key, so the chunk leaks. -/

def chunkerFixed1 : Bytes → List (Bytes × Bytes) := fixedSizeChunkBlob id 1
def c3store := storeBlob chunkerFixed1 id id DoopState.initial "b1" [0, 0]
def c3del := c3store.bind (fun st => deleteBlob st "b1")

/-- The trivial chunker of the C2 witness run: one chunk keyed by its own
bytes (the hash and the compressor of that run are the identity). -/
def c2wChunker : Bytes → List (Bytes × Bytes) := fun b => [(b, b)]

/-- The state store_blob produces from the fresh store for blob [7, 7]
under the trivial chunker. -/
def c2wState : DoopState Bytes Bytes :=
  { kv := { store := [([7, 7], [7, 7])], reference_count := [([7, 7], 1)] }
    blobs := [⟨"b1", [7, 7], [1]⟩]
    chunkRows := [⟨1, [7, 7]⟩]
    nextChunkId := 2 }

end Runs

end Snoop

namespace Snoop

open Apriquot Doop Runs

/-- Claim C1: in a queue of only eligible items each pop is claimed to
return the highest effective priority; in the seed scenario pushing
priorities 1.0, 0.5, 2.0 the pops are claimed to return 2.0, 1.0, 0.5.
The code does the opposite: the priority heap is a CPython min-heap ordered
by Item.__lt__, which is effective_priority <, so pop returns the LOWEST
effective priority first.  This theorem evaluates the embedded code at the
claim's own input: the three pops return the items with priorities 0.5,
1.0 and 2.0 in that order, contradicting the claim and the repository's
test test_items_prioritized_correctly. -/
theorem c1_pop_returns_lowest_priority_first :
    c1pop1.2.map Item.id = .ok "i2" ∧ c1pop1.2.map Item.priority = .ok (mkRat 1 2) ∧
    c1pop2.2.map Item.id = .ok "i1" ∧ c1pop2.2.map Item.priority = .ok 1 ∧
    c1pop3.2.map Item.id = .ok "i3" ∧ c1pop3.2.map Item.priority = .ok 2 := by
  decide

/-- Claim C7: there is a reachable queue state in which pop raises an error
other than QueueEmpty.  The run: item i1 with deadline 1 is pushed at time
0 and popped at time 0 (leaving it in the expiration heap but not in the
priority heap), item i2 is pushed, and a pop at time 2 reaches the
expired-item sweep, whose priority_heap.remove(i1) raises ValueError. -/
theorem c7_pop_raises_value_error :
    c7pop1.2.map Item.id = .ok "i1" ∧
    c7pop2.2 = .error .valueErrorRemove ∧
    QueueErr.valueErrorRemove ≠ QueueErr.queueEmptyOnEntry ∧
    QueueErr.valueErrorRemove ≠ QueueErr.queueEmptyNoEligible := by
  decide

/-- Claim C8: the claim (and spec) say an item constructed with a future
maturation starts IMMATURE.  The code sets the state with
ItemState.IMMATURE if self.matures is None else ItemState.READY, and
self.matures is never None (it defaults to the enqueued time), so every
item starts READY.  This theorem evaluates Item.__init__ at the failing
input: maturation 100 seconds in the future, state nonetheless READY. -/
theorem c8_future_maturation_starts_ready :
    (Item.init { priority := 1, matures := some 100 } 0 "i1").map Item.state =
      .ok ItemState.READY ∧ (0 : ℚ) < 100 := by
  constructor
  · decide
  · norm_num

/-- Claim C9 counterexample: the claim says push raises ItemExpired when
the deadline equals the push time (deadline ≤ now).  The code's check is
strict (deadline < now), so a push whose deadline equals the current time
is accepted. -/
theorem c9_counterexample_deadline_eq_now_accepted :
    c9p.2 = .ok "i1" ∧ c9p.2 ≠ .error .itemExpired := by
  decide

/-- Claim C4 counterexample: the claim says retry_item re-inserts into the
priority collection when the recomputed maturation is not in the future.
In the run, the retried item's maturation is 0 = now, yet it is pushed
onto the maturation heap and the priority heap stays empty: retry_item
always re-inserts into the maturation heap (if item.matures is always
true, since matures is always a datetime). -/
theorem c4_counterexample_past_maturation_goes_to_maturation_heap :
    c4r.2 = .ok true ∧
    (dictGet c4r.1.item_map "i1").map Item.matures = some (some 0) ∧
    c4r.1.maturation_heap = [(0, "i1")] ∧
    c4r.1.priority_heap = [] := by
  decide

/-- Claim C5: consume_tokens first refreshes the token count to
min(maxTokens, tokens + elapsed * refillRate) advancing lastRefillTime,
returns true removing exactly quantity tokens when the refreshed count
suffices, and returns false leaving the refreshed count otherwise; the
seed scenario (group max_tokens 2, refill_rate 1/s, three cost-1 items)
sees two immediate pops succeed, a third immediate pop fail with
QueueEmpty, and a pop one second later succeed.  The hypotheses express
that the group state is reachable: last_pop is never written after
__init__ (it stays datetime.min) and max_pop_rate is the constant 1e9, so
the rate guard 1 / elapsed < max_pop_rate always holds. -/
theorem c5_consume_tokens_refill_and_scenario (g : ItemGroup) (now quantity : ℚ)
    (hpop : g.last_pop = pythonDatetimeMin)
    (hrate : g.max_pop_rate = Rat.ofInt 1000000000)
    (hnow : 0 ≤ now) :
    ((g.update now).tokens
        = min g.max_tokens (g.tokens + (now - g.last_refill_time) * g.refill_rate) ∧
      (g.update now).last_refill_time = now) ∧
    (quantity ≤ (g.update now).tokens →
      g.consumeTokens now quantity
        = .ok (true, { g.update now with tokens := (g.update now).tokens - quantity })) ∧
    (¬ quantity ≤ (g.update now).tokens →
      g.consumeTokens now quantity = .ok (false, g.update now)) ∧
    ((c5pop1.2.map Item.id = .ok "i3" ∧ c5pop2.2.map Item.id = .ok "i1") ∧
      c5pop3.2 = .error .queueEmptyNoEligible ∧
      c5pop4.2.map Item.id = .ok "i2") := by
  have hupd : g.update now
      = { g with
          tokens := min g.max_tokens (g.tokens + (now - g.last_refill_time) * g.refill_rate)
          last_refill_time := now } := by
    rw [ItemGroup.update, qmin_eq, qadd_eq, qmul_eq, qsub_eq]
  have hpmin : pythonDatetimeMin = ((-62135596800 : Int) : ℚ) := by
    rw [pythonDatetimeMin, Rat.ofInt_eq_cast]
  have helne : ¬ (qsub now (g.update now).last_pop = 0) := by
    have : (g.update now).last_pop = g.last_pop := by rw [hupd]
    rw [qsub_eq, this, hpop, hpmin]
    intro h
    rw [sub_eq_zero] at h
    rw [h] at hnow
    norm_num at hnow
  have hguard : qlt (qdiv 1 (qsub now (g.update now).last_pop)) (g.update now).max_pop_rate
      = true := by
    have hlp : (g.update now).last_pop = g.last_pop := by rw [hupd]
    have hmp : (g.update now).max_pop_rate = g.max_pop_rate := by rw [hupd]
    rw [qlt_iff, qdiv_eq, qsub_eq, hlp, hmp, hpop, hrate, hpmin, Rat.ofInt_eq_cast]
    have he : (0 : ℚ) < now - ((-62135596800 : Int) : ℚ) := by push_cast; linarith
    rw [div_lt_iff₀ he]
    push_cast
    nlinarith
  refine ⟨⟨by rw [hupd], by rw [hupd]⟩, ?_, ?_, by decide⟩
  · intro hle
    rw [ItemGroup.consumeTokens]
    rw [if_pos ((qle_iff _ _).mpr hle)]
    rw [if_neg helne, if_pos hguard]
    rw [qsub_eq]
  · intro hle
    rw [ItemGroup.consumeTokens]
    rw [if_neg (fun h => hle ((qle_iff _ _).mp h))]

/-- Witness for claim C5 at a concrete group: the group created by
new_group with the defaults, observed 5 seconds later, consuming 1
token. -/
theorem c5_consume_tokens_refill_and_scenario_witness :
    ((ItemGroup.init {} 0 "gw").last_pop = pythonDatetimeMin ∧
      (ItemGroup.init {} 0 "gw").max_pop_rate = Rat.ofInt 1000000000 ∧
      (0 : ℚ) ≤ 5 ∧ (1 : ℚ) ≤ ((ItemGroup.init {} 0 "gw").update 5).tokens) ∧
    (ItemGroup.init {} 0 "gw").consumeTokens 5 1
      = .ok (true,
        { (ItemGroup.init {} 0 "gw").update 5 with
          tokens := ((ItemGroup.init {} 0 "gw").update 5).tokens - 1 }) := by
  refine ⟨⟨by decide, by decide, by norm_num, by decide⟩, ?_⟩
  exact (c5_consume_tokens_refill_and_scenario (ItemGroup.init {} 0 "gw") 5 1
    (by decide) (by decide) (by norm_num)).2.1 (by decide)

/-- The only exceptions the cyclic-dependency search can raise are KeyError
(unknown id dereference) and the fuel sentinel of the embedding. -/
theorem dfs_error_shape (m : List (String × Item)) : ∀ fuel : Nat,
    (∀ node st e, dfsVisit m fuel node st = .error e →
      e = .fuelExhausted ∨ ∃ k, e = .keyError k) ∧
    (∀ deps st e, dfsVisitList m fuel deps st = .error e →
      e = .fuelExhausted ∨ ∃ k, e = .keyError k) := by
  intro fuel
  induction fuel with
  | zero =>
    constructor
    · intro node st e h
      rw [dfsVisit] at h
      exact Or.inl (Except.error.inj h).symm
    · intro deps st e h
      rw [dfsVisitList.eq_def] at h
      exact Or.inl (Except.error.inj h).symm
  | succ n ih =>
    constructor
    · intro node st e h
      rw [dfsVisit] at h
      split at h
      · exact absurd h (by simp)
      · split at h
        · exact absurd h (by simp)
        · dsimp only at h
          split at h
          · exact Or.inr ⟨node, (Except.error.inj h).symm⟩
          · split at h
            · rename_i e' heq
              cases h
              exact ih.2 _ _ _ heq
            · exact absurd h (by simp)
            · exact absurd h (by simp)
    · intro deps st e h
      match deps with
      | [] =>
        rw [dfsVisitList] at h
        exact absurd h (by simp)
      | dep :: deps =>
        rw [dfsVisitList] at h
        split at h
        · rename_i e' heq
          cases h
          exact ih.1 _ _ _ heq
        · exact absurd h (by simp)
        · exact ih.2 _ _ _ h

/-- Error shape of ApriQueue.has_cyclic_dependency: only KeyError or the
fuel sentinel. -/
theorem hasCyclicDependency_error_shape (m : List (String × Item)) (id : String)
    (deps : List String) (e : QueueErr) (h : hasCyclicDependency m id deps = .error e) :
    e = .fuelExhausted ∨ ∃ k, e = .keyError k := by
  rw [hasCyclicDependency] at h
  split at h
  · rename_i e' heq
    cases h
    exact (dfs_error_shape m _).2 _ _ _ heq
  · exact Except.noConfusion h

/-- Claim C9 (amended): a push whose item has deadline d raises ItemExpired
exactly when d is STRICTLY before the push time (the source check is
new_item.deadline < current_time); in particular a deadline equal to the
current time is accepted, contrary to the original claim's
deadline-equal-to-now case.  The priority and jitter hypotheses make the
item constructor succeed, so the deadline check is reached. -/
theorem c9_push_item_expired_iff_deadline_strictly_past
    (fpow : ℚ → ℚ → ℚ) (q : ApriQueue) (spec : ItemSpec) (now d : ℚ)
    (itemId gid : String)
    (hp : 0 ≤ spec.priority) (hj0 : 0 ≤ spec.jitter) (hj1 : spec.jitter ≤ 1)
    (hd : spec.deadline = some d) :
    (ApriQueue.push fpow q spec now itemId gid).2 = .error .itemExpired ↔ d < now := by
  have hinit : ∀ sp : ItemSpec, sp.priority = spec.priority → sp.jitter = spec.jitter →
      sp.deadline = spec.deadline →
      ∃ it, Item.init sp now itemId = .ok it ∧ it.deadline = some d ∧ it.matures.isSome := by
    intro sp h1 h2 h3
    rw [Item.init]
    rw [if_neg (fun hq => absurd ((qlt_iff _ _).mp hq) (not_lt.mpr (h1 ▸ hp)))]
    rw [if_neg (fun hq => by
      rcases Bool.or_eq_true _ _ |>.mp hq with hq | hq
      · exact absurd ((qlt_iff _ _).mp hq) (not_lt.mpr (h2 ▸ hj0))
      · exact absurd ((qlt_iff _ _).mp hq) (not_lt.mpr (h2 ▸ hj1)))]
    refine ⟨_, rfl, ?_, ?_⟩
    · rw [Item.updateMatureTime]
      rw [if_neg (by norm_num)]
      rw [h3, hd]
      rfl
    · rw [Item.updateMatureTime]
      rw [if_neg (by norm_num)]
      rfl
  rw [ApriQueue.push]
  rcases hg : spec.group with _ | g0
  all_goals simp only
  case some =>
    obtain ⟨it, hit, hitd, hitm⟩ := hinit spec rfl rfl rfl
    rw [hit]
    simp only
    by_cases hlt : d < now
    · rw [if_pos ⟨by rw [hitd]; rfl, by rw [hitd]; exact (qlt_iff _ _).mpr hlt⟩]
      simp [hlt]
    · rw [if_neg (fun hc => hlt (by
        have := hc.2
        rw [hitd] at this
        exact (qlt_iff _ _).mp this))]
      constructor
      · intro hres
        exfalso
        split at hres
        · exact absurd (Except.error.inj hres) (by simp)
        · revert hres
          split
          · rename_i e heq
            intro hres
            rcases hasCyclicDependency_error_shape _ _ _ _ heq with h | ⟨k, h⟩ <;>
              simp [h] at hres
          · intro hres
            exact absurd (Except.error.inj hres) (by simp)
          · intro hres
            exact Except.noConfusion hres
      · intro h
        exact absurd h hlt
  case none =>
    obtain ⟨it, hit, hitd, hitm⟩ := hinit { spec with group := some (q.resolveDefaultGroup now gid).2 }
      rfl rfl rfl
    rw [hit]
    simp only
    by_cases hlt : d < now
    · rw [if_pos ⟨by rw [hitd]; rfl, by rw [hitd]; exact (qlt_iff _ _).mpr hlt⟩]
      simp [hlt]
    · rw [if_neg (fun hc => hlt (by
        have := hc.2
        rw [hitd] at this
        exact (qlt_iff _ _).mp this))]
      constructor
      · intro hres
        exfalso
        split at hres
        · exact absurd (Except.error.inj hres) (by simp)
        · revert hres
          split
          · rename_i e heq
            intro hres
            rcases hasCyclicDependency_error_shape _ _ _ _ heq with h | ⟨k, h⟩ <;>
              simp [h] at hres
          · intro hres
            exact absurd (Except.error.inj hres) (by simp)
          · intro hres
            exact Except.noConfusion hres
      · intro h
        exact absurd h hlt

/-- Witness for claim C9 (amended) at a concrete input: a push at time 5
with deadline 3 raises ItemExpired, since 3 < 5. -/
theorem c9_push_item_expired_iff_deadline_strictly_past_witness :
    ((0 : ℚ) ≤ 1 ∧ (0 : ℚ) ≤ mkRat 1 10 ∧ (mkRat 1 10 : ℚ) ≤ 1 ∧
      (ItemSpec.deadline { priority := 1, deadline := some 3 } = some 3)) ∧
    ((ApriQueue.push Runs.fpowD ApriQueue.initial { priority := 1, deadline := some 3 }
        5 "i1" "g1").2 = .error .itemExpired ↔ (3 : ℚ) < 5) := by
  refine ⟨⟨by norm_num, by norm_num [mkRat], by norm_num [mkRat], rfl⟩, ?_⟩
  exact c9_push_item_expired_iff_deadline_strictly_past Runs.fpowD ApriQueue.initial
    { priority := 1, deadline := some 3 } 5 3 "i1" "g1"
    (by norm_num) (by norm_num [mkRat]) (by norm_num [mkRat]) rfl

/-- Claim C4 (amended): for an item known to the queue, retry_item returns
false and leaves the item (and the whole queue) unchanged when its retries
already equal max_retries; otherwise it increments the retry counter by
exactly one, recomputes maturation by the backoff rule
(max of the old maturation and (last_popped or enqueued) +
base_retry_delay * backoff_factor^retries * (1 + u)), re-inserts the item
into the MATURATION collection unconditionally (the source tests
if item.matures, and matures is always set, so the priority-collection
branch of the original claim is dead code), and returns true without
raising. -/
theorem c4_retry_item_amended (fpow : ℚ → ℚ → ℚ) (q : ApriQueue) (itemId : String)
    (it : Item) (now u m : ℚ)
    (hfind : dictGet q.item_map itemId = some it) (hm : it.matures = some m) :
    (it.retries ≥ it.max_retries →
      ApriQueue.retryItem fpow q itemId now u = (q, .ok false)) ∧
    (it.retries < it.max_retries →
      ∃ it' : Item,
        it' = { it with
                retries := it.retries + 1
                matures := some (max m ((it.last_popped.getD it.enqueued) +
                  it.base_retry_delay * it.backoff_factor ^ (it.retries + 1) * (1 + u))) } ∧
        ApriQueue.retryItem fpow q itemId now u =
          ({ q with
             item_map := dictSet q.item_map itemId it'
             maturation_heap := Heapq.heappush (pairLt fpow now (dictSet q.item_map itemId it'))
               q.maturation_heap
               (max m ((it.last_popped.getD it.enqueued) +
                 it.base_retry_delay * it.backoff_factor ^ (it.retries + 1) * (1 + u)), itemId) },
           .ok true)) := by
  have hval : qmax m (qadd (it.last_popped.getD it.enqueued)
        (qmul (qmul it.base_retry_delay (qpow it.backoff_factor (it.retries + 1))) (qadd 1 u)))
      = max m ((it.last_popped.getD it.enqueued) +
        it.base_retry_delay * it.backoff_factor ^ (it.retries + 1) * (1 + u)) := by
    rw [qmax_eq, qadd_eq, qmul_eq, qmul_eq, qpow_eq, qadd_eq]
  constructor
  · intro hge
    rw [ApriQueue.retryItem, hfind]
    simp only
    rw [if_pos hge]
  · intro hlt
    rw [ApriQueue.retryItem, hfind]
    simp only
    rw [if_neg (not_le.mpr hlt)]
    rw [Item.retry]
    simp only
    rw [if_neg (by omega)]
    rw [Item.updateMatureTime]
    simp only
    rw [if_pos (by omega)]
    rw [hm]
    simp only
    refine ⟨_, rfl, ?_⟩
    rw [hval]

/-- A concrete item for the claim C4 witness. -/
def c4witnessItem : Item :=
  { item := "w", priority := 1, minimum_fractional_priority := mkRat 1 10, cost := 1
    aging_factor := mkRat 9 10, enqueued := 0, matures := some 2
    deadline := some (Rat.ofInt 31449600), max_retries := 3, backoff_factor := 2
    base_retry_delay := mkRat 1 10, jitter := mkRat 1 10, group := none
    dependencies := [], id := "a", retries := 0, last_popped := none
    state := ItemState.READY }

/-- A concrete queue holding c4witnessItem, for the claim C4 witness. -/
def c4witnessQueue : ApriQueue :=
  { ApriQueue.initial with item_map := [("a", c4witnessItem)] }

/-- Witness for claim C4 (amended) at a concrete queue holding one item
with retries 0, max_retries 3, maturation 2. -/
theorem c4_retry_item_amended_witness :
    (dictGet c4witnessQueue.item_map "a" = some c4witnessItem ∧
      c4witnessItem.matures = some 2) ∧
    ((c4witnessItem.retries ≥ c4witnessItem.max_retries →
      ApriQueue.retryItem Runs.fpowD c4witnessQueue "a" 9 0 = (c4witnessQueue, .ok false)) ∧
    (c4witnessItem.retries < c4witnessItem.max_retries →
      ∃ it' : Item,
        it' = { c4witnessItem with
                retries := c4witnessItem.retries + 1
                matures := some (max 2 ((c4witnessItem.last_popped.getD c4witnessItem.enqueued) +
                  c4witnessItem.base_retry_delay *
                    c4witnessItem.backoff_factor ^ (c4witnessItem.retries + 1) * (1 + 0))) } ∧
        ApriQueue.retryItem Runs.fpowD c4witnessQueue "a" 9 0 =
          ({ c4witnessQueue with
             item_map := dictSet c4witnessQueue.item_map "a" it'
             maturation_heap := Heapq.heappush
               (pairLt Runs.fpowD 9 (dictSet c4witnessQueue.item_map "a" it'))
               c4witnessQueue.maturation_heap
               (max 2 ((c4witnessItem.last_popped.getD c4witnessItem.enqueued) +
                 c4witnessItem.base_retry_delay *
                   c4witnessItem.backoff_factor ^ (c4witnessItem.retries + 1) * (1 + 0)), "a") },
           .ok true))) := by
  refine ⟨⟨by decide, by decide⟩, ?_⟩
  exact c4_retry_item_amended Runs.fpowD c4witnessQueue "a" c4witnessItem 9 0 2
    (by decide) (by decide)

/-- Loop invariant of the FastCDC scan: starting at position i = length -
fuel with chunk origin cs ≤ i and an accumulator whose chunks concatenate
to blob[0:cs] and individually lie in [minS, maxS], the loop returns a
list whose concatenation is the whole blob, whose new chunks extend the
accumulator, and all of whose chunks except possibly the final remainder
lie in [minS, maxS]. -/
theorem cdcGo_spec (gearTable : Nat → Nat) (minS maxS mask : Nat) (blob : Bytes)
    (hmm : minS ≤ maxS) :
    ∀ (fuel i cs gear : Nat) (acc : List Bytes),
      fuel = blob.length - i → cs ≤ i → i ≤ blob.length →
      acc.flatten = blob.take cs →
      (∀ c ∈ acc, minS ≤ c.length ∧ c.length ≤ maxS) →
      (cdcGo gearTable minS maxS mask blob fuel i cs gear acc).flatten = blob ∧
      (∀ c ∈ (cdcGo gearTable minS maxS mask blob fuel i cs gear acc).dropLast,
        minS ≤ c.length ∧ c.length ≤ maxS) := by
  intro fuel
  induction fuel with
  | zero =>
    intro i cs gear acc hfuel hcsi hilen hacc hbound
    rw [cdcGo]
    have hi : i = blob.length := by omega
    by_cases hcs : cs < blob.length
    · rw [if_pos hcs]
      constructor
      · rw [List.flatten_append, hacc]
        simp [List.take_append_drop]
      · rw [List.dropLast_concat]
        exact hbound
    · rw [if_neg hcs]
      have hcseq : cs = blob.length := by omega
      constructor
      · simp only [List.append_nil, hacc, hcseq, List.take_length]
      · intro c hc
        exact hbound c (List.dropLast_subset _ (by simpa using hc))
  | succ fuel ih =>
    intro i cs gear acc hfuel hcsi hilen hacc hbound
    rw [cdcGo]
    simp only
    split
    · rename_i hcut
      set e := min i (cs + maxS) with he
      have hcse : cs ≤ e := by omega
      have hei : e ≤ i := by omega
      apply ih (i + 1) e 0 (acc ++ [(blob.drop cs).take (e - cs)])
      · omega
      · omega
      · omega
      · rw [List.flatten_append]
        rw [hacc]
        simp only [List.flatten_cons, List.flatten_nil, List.append_nil]
        rw [← List.take_add]
        congr 1
        omega
      · intro c hc
        rcases List.mem_append.mp hc with hc | hc
        · exact hbound c hc
        · have hclen : c.length = min (i - cs) maxS := by
            simp only [List.mem_singleton] at hc
            subst hc
            rw [List.length_take, List.length_drop]
            omega
          constructor
          · rw [hclen]
            exact le_min hcut.1 hmm
          · rw [hclen]
            omega
    · exact ih (i + 1) cs _ acc (by omega) (by omega) (by omega) hacc hbound

/-- Claim C6: for every input and FastCDC parameters with min ≤ max, the
content-defined chunker returns (key, chunk) pairs whose chunks
concatenate to the input, every chunk except the last lies in [min, max],
each key is hash_chunk of the chunk bytes, and the empty input yields the
empty list. -/
theorem c6_fastcdc_chunk_blob_invariants (κ : Type) (hashC : Bytes → κ)
    (gearTable : Nat → Nat) (minS maxS mask : Nat) (blob : Bytes)
    (hmm : minS ≤ maxS) :
    (blob = [] → fastCDCChunkBlob hashC gearTable minS maxS mask blob = []) ∧
    ((fastCDCChunkBlob hashC gearTable minS maxS mask blob).map Prod.snd).flatten = blob ∧
    (∀ c ∈ ((fastCDCChunkBlob hashC gearTable minS maxS mask blob).map Prod.snd).dropLast,
      minS ≤ c.length ∧ c.length ≤ maxS) ∧
    (∀ p ∈ fastCDCChunkBlob hashC gearTable minS maxS mask blob, p.1 = hashC p.2) := by
  have hspec := cdcGo_spec gearTable minS maxS mask blob hmm
    (blob.length - 0) 0 0 0 [] rfl (Nat.zero_le 0) (Nat.zero_le _) (by simp) (by simp)
  have hchunks : (fastCDCChunkBlob hashC gearTable minS maxS mask blob).map Prod.snd
      = cdcLoop gearTable minS maxS mask blob 0 0 0 [] := by
    rw [fastCDCChunkBlob, List.map_map]
    exact List.map_id _
  refine ⟨?_, ?_, ?_, ?_⟩
  · intro hblob
    subst hblob
    rfl
  · rw [hchunks, cdcLoop]
    exact hspec.1
  · rw [hchunks, cdcLoop]
    exact hspec.2
  · intro p hp
    rw [fastCDCChunkBlob, List.mem_map] at hp
    obtain ⟨c, _, rfl⟩ := hp
    rfl

/-- Witness for claim C6 at concrete parameters: mask 0 (cut whenever the
minimum size is reached), min 1, max 2, over the input [5, 6, 7]. -/
theorem c6_fastcdc_chunk_blob_invariants_witness :
    (1 ≤ 2) ∧
    (([5, 6, 7] : Bytes) = [] → fastCDCChunkBlob id (fun _ => 0) 1 2 0 [5, 6, 7] = []) ∧
    ((fastCDCChunkBlob id (fun _ => 0) 1 2 0 [5, 6, 7]).map Prod.snd).flatten = [5, 6, 7] ∧
    (∀ c ∈ ((fastCDCChunkBlob id (fun _ => 0) 1 2 0 [5, 6, 7]).map Prod.snd).dropLast,
      1 ≤ c.length ∧ c.length ≤ 2) ∧
    (∀ p ∈ fastCDCChunkBlob id (fun _ => 0) 1 2 0 [5, 6, 7], p.1 = id p.2) :=
  ⟨by decide,
   c6_fastcdc_chunk_blob_invariants Bytes id (fun _ => 0) 1 2 0 [5, 6, 7] (by decide)⟩

/-- Claim C3 counterexample: after storing a blob whose chunk list repeats
one chunk ([0, 0] under the fixed-size-1 chunker, reference count 2) and
deleting that blob, no live blob references the chunk but the key-value
backend still holds it with reference count 1: delete_blob deletes each
DISTINCT key once (select Chunk.hash where Chunk.id in blob.chunks), while
store_blob incremented once per occurrence. -/
theorem c3_counterexample_duplicate_chunk_leaks :
    c3store.map (fun st => st.kv.reference_count) = .ok [([0], 2)] ∧
    c3del.map (fun st => st.blobs) = .ok [] ∧
    c3del.map (fun st => st.kv.store) = .ok [([0], [0])] ∧
    c3del.map (fun st => st.kv.reference_count) = .ok [([0], 1)] := by
  decide


/-- dictGet after dictSet: the set key now maps to the new value and every
other key is unchanged. -/
theorem dictGet_dictSet {α β : Type} [DecidableEq α] (d : List (α × β)) (k k' : α) (v : β) :
    dictGet (dictSet d k v) k' = if k = k' then some v else dictGet d k' := by
  induction d with
  | nil => simp [dictSet, dictGet]
  | cons p rest ih =>
    obtain ⟨a, b⟩ := p
    by_cases hak : a = k
    · subst hak
      by_cases hkk : a = k'
      · subst hkk; simp [dictSet, dictGet]
      · simp [dictSet, dictGet, hkk]
    · by_cases hak' : a = k'
      · subst hak'
        have : k ≠ a := fun h => hak h.symm
        simp [dictSet, dictGet, hak, this]
      · simp [dictSet, dictGet, hak, hak', ih]

/-- A successful dictGet is a list membership. -/
theorem dictGet_mem {α β : Type} [DecidableEq α] {d : List (α × β)} {k : α} {v : β}
    (h : dictGet d k = some v) : (k, v) ∈ d := by
  induction d with
  | nil => simp [dictGet] at h
  | cons p rest ih =>
    obtain ⟨a, b⟩ := p
    by_cases hak : a = k
    · subst hak
      simp [dictGet] at h
      simp [h]
    · simp [dictGet, hak] at h
      exact List.mem_cons_of_mem _ (ih h)

/-- Entries of dictSet come from the new binding or the old dict. -/
theorem mem_dictSet {α β : Type} [DecidableEq α] {d : List (α × β)} {k : α} {v : β} {p : α × β}
    (h : p ∈ dictSet d k v) : p = (k, v) ∨ p ∈ d := by
  induction d with
  | nil =>
    simp [dictSet] at h
    simp [h]
  | cons q rest ih =>
    obtain ⟨a, b⟩ := q
    by_cases hak : a = k
    · subst hak
      simp [dictSet] at h
      rcases h with h | h
      · exact Or.inl (by simp [h])
      · exact Or.inr (List.mem_cons_of_mem _ h)
    · simp [dictSet, hak] at h
      rcases h with h | h
      · exact Or.inr (by simp [h])
      · rcases ih h with h1 | h1
        · exact Or.inl h1
        · exact Or.inr (List.mem_cons_of_mem _ h1)

/-- dictDel only removes entries. -/
theorem dictDel_subset {α β : Type} [DecidableEq α] {d : List (α × β)} {k : α} {p : α × β}
    (h : p ∈ dictDel d k) : p ∈ d := by
  induction d with
  | nil => simp [dictDel] at h
  | cons q rest ih =>
    obtain ⟨a, b⟩ := q
    by_cases hak : a = k
    · subst hak
      simp [dictDel] at h
      exact List.mem_cons_of_mem _ h
    · simp [dictDel, hak] at h
      rcases h with h | h
      · simp [h]
      · exact List.mem_cons_of_mem _ (ih h)

/-- Store entries after a put come from the new compressed binding or the
old store. -/
theorem mem_store_put {κ : Type} [DecidableEq κ] (compress : Bytes → Bytes)
    {kv : KVStore κ} {key : κ} {val : Bytes} {p : κ × Bytes}
    (h : p ∈ (KVStore.put compress kv key val).store) :
    p = (key, compress val) ∨ p ∈ kv.store := by
  unfold KVStore.put KVStore.putRaw at h
  split at h
  · exact Or.inr h
  · exact mem_dictSet h

/-- Store entries after put_batch come from the batch or the old store. -/
theorem mem_store_putBatch {κ : Type} [DecidableEq κ] (compress : Bytes → Bytes)
    (items : List (κ × Bytes)) :
    ∀ (kv : KVStore κ) (p : κ × Bytes), p ∈ (KVStore.putBatch compress kv items).store →
      p ∈ kv.store ∨ ∃ q ∈ items, p = (q.1, compress q.2) := by
  induction items with
  | nil => intro kv p h; exact Or.inl h
  | cons i is ih =>
    intro kv p h
    rcases ih (KVStore.put compress kv i.1 i.2) p h with h2 | h2
    · rcases mem_store_put compress h2 with h3 | h3
      · exact Or.inr ⟨i, List.mem_cons_self _ _, h3⟩
      · exact Or.inl h3
    · obtain ⟨q, hq, hpq⟩ := h2
      exact Or.inr ⟨q, List.mem_cons_of_mem _ hq, hpq⟩

/-- Store entries after a delete_batch were in the old store. -/
theorem mem_store_deleteKey {κ : Type} [DecidableEq κ] {kv : KVStore κ} {k : κ} {p : κ × Bytes}
    (h : p ∈ (kv.deleteKey k).store) : p ∈ kv.store := by
  unfold KVStore.deleteKey at h
  by_cases hm : dictMem kv.store k
  · rw [if_pos hm] at h
    dsimp only at h
    split at h
    · exact dictDel_subset h
    · exact h
  · rw [if_neg hm] at h
    exact h

theorem mem_store_deleteBatch {κ : Type} [DecidableEq κ] (ks : List κ) :
    ∀ (kv : KVStore κ) (p : κ × Bytes), p ∈ (kv.deleteBatch ks).store → p ∈ kv.store := by
  induction ks with
  | nil => intro kv p h; exact h
  | cons k ks ih =>
    intro kv p h
    exact mem_store_deleteKey (ih (kv.deleteKey k) p h)

/-- dictGet through a single put: the put key maps to its old value if it
had one (a put of an existing key keeps the stored value) and to the new
compressed value otherwise; other keys are unchanged. -/
theorem dictGet_put {κ : Type} [DecidableEq κ] (compress : Bytes → Bytes)
    (kv : KVStore κ) (key k : κ) (val : Bytes) :
    dictGet (KVStore.put compress kv key val).store k =
      if key = k then some ((dictGet kv.store key).getD (compress val))
      else dictGet kv.store k := by
  unfold KVStore.put KVStore.putRaw
  by_cases hm : dictMem kv.store key
  · rw [if_pos hm]
    by_cases hk : key = k
    · subst hk
      unfold dictMem at hm
      cases hv : dictGet kv.store key with
      | none => rw [hv] at hm; simp at hm
      | some v => simp [hv]
    · simp [hk]
  · rw [if_neg hm]
    show dictGet (dictSet kv.store key (compress val)) k = _
    rw [dictGet_dictSet]
    by_cases hk : key = k
    · subst hk
      unfold dictMem at hm
      cases hv : dictGet kv.store key with
      | none => simp [hv]
      | some v => rw [hv] at hm; simp at hm
    · simp [hk]

/-- dictGet through put_batch: an existing binding survives, and a key new
to the store gets the compressed value of the first batch item bearing it. -/
theorem dictGet_putBatch {κ : Type} [DecidableEq κ] (compress : Bytes → Bytes)
    (items : List (κ × Bytes)) :
    ∀ (kv : KVStore κ) (k : κ),
      dictGet (KVStore.putBatch compress kv items).store k =
        match dictGet kv.store k with
        | some v => some v
        | none => (items.find? (fun q => q.1 = k)).map (fun q => compress q.2) := by
  induction items with
  | nil =>
    intro kv k
    cases h : dictGet kv.store k <;> simp [KVStore.putBatch, h]
  | cons i is ih =>
    intro kv k
    have step := ih (KVStore.put compress kv i.1 i.2) k
    have hput := dictGet_put compress kv i.1 k i.2
    by_cases hik : i.1 = k
    · subst hik
      rw [if_pos rfl] at hput
      show dictGet (KVStore.putBatch compress (KVStore.put compress kv i.1 i.2) is).store i.1 = _
      rw [step, hput]
      cases hv : dictGet kv.store i.1 with
      | none =>
        simp only [hv, Option.getD_none]
        rw [List.find?_cons_of_pos _ (by simp)]
        rfl
      | some v =>
        simp [hv]
    · rw [if_neg hik] at hput
      show dictGet (KVStore.putBatch compress (KVStore.put compress kv i.1 i.2) is).store k = _
      rw [step, hput]
      cases hv : dictGet kv.store k with
      | none =>
        simp only [hv]
        rw [List.find?_cons_of_neg _ (by simp [hik])]
      | some v => simp [hv]

/-- pyDedup keeps one copy of each value: its worker output is duplicate
free and avoids the seen accumulator. -/
theorem pyDedupGo_nodup {α : Type} [DecidableEq α] :
    ∀ (l seen : List α), (pyDedupGo l seen).Nodup ∧ ∀ a ∈ pyDedupGo l seen, a ∉ seen := by
  intro l
  induction l with
  | nil => intro seen; simp [pyDedupGo]
  | cons a as ih =>
    intro seen
    by_cases h : a ∈ seen
    · simp only [pyDedupGo, if_pos h]
      exact ih seen
    · simp only [pyDedupGo, if_neg h]
      obtain ⟨hnd, hni⟩ := ih (a :: seen)
      refine ⟨List.nodup_cons.mpr ⟨fun hmem => hni a hmem (List.mem_cons_self _ _), hnd⟩, ?_⟩
      intro b hb hbseen
      rcases List.mem_cons.mp hb with rfl | hb2
      · exact h hbseen
      · exact hni b hb2 (List.mem_cons_of_mem _ hbseen)

theorem pyDedup_nodup {α : Type} [DecidableEq α] (l : List α) : (pyDedup l).Nodup :=
  (pyDedupGo_nodup l []).1

/-- Option mapM succeeds exactly on pointwise successes. -/
theorem mapM_option_some {α β : Type} (f : α → Option β) :
    ∀ (l : List α) (l2 : List β),
      l.mapM f = some l2 ↔ List.Forall₂ (fun a b => f a = some b) l l2 := by
  intro l
  induction l with
  | nil =>
    intro l2
    constructor
    · intro h
      rw [List.mapM_nil] at h
      cases h
      exact List.Forall₂.nil
    · intro h
      cases h
      rw [List.mapM_nil]
      rfl
  | cons a as ih =>
    intro l2
    constructor
    · intro h
      rw [List.mapM_cons] at h
      cases hfa : f a with
      | none => rw [hfa] at h; simp at h
      | some b =>
        rw [hfa] at h
        cases hmm : as.mapM f with
        | none => rw [hmm] at h; simp at h
        | some bs =>
          rw [hmm] at h
          simp only [Option.bind_some, Option.pure_def] at h
          cases h
          exact List.Forall₂.cons hfa ((ih bs).mp hmm)
    · intro h
      cases h with
      | cons hab htail =>
        rw [List.mapM_cons, hab, (ih _).mpr htail]
        rfl

/-- Unfolding step of joinOpt. -/
theorem joinOpt_cons (v : Option Bytes) (vs : List (Option Bytes)) :
    joinOpt (v :: vs) =
      match v, joinOpt vs with
      | some b, some rest => some (b ++ rest)
      | _, _ => none := rfl

/-- join over a pointwise successful get_batch. -/
theorem joinOpt_of_forall₂ {κ : Type} (g : κ → Option Bytes)
    {keys : List κ} {vals : List Bytes}
    (h : List.Forall₂ (fun k v => g k = some v) keys vals) :
    joinOpt (keys.map g) = some vals.flatten := by
  induction h with
  | nil => rfl
  | cons hkv htail ih =>
    rw [List.map_cons, joinOpt_cons, hkv, ih]
    rfl

/-- The metadata rows built for the new keys carry exactly those keys as
hashes. -/
theorem newRows_hashes {κ : Type} (keys : List κ) (base : Nat) :
    (((keys.zip (List.range keys.length)).map
      (fun p => ChunkRow.mk (base + p.2) p.1)).map (fun r => r.hash)) = keys := by
  rw [List.map_map]
  have h : ((fun r : ChunkRow κ => r.hash) ∘ fun p : κ × Nat => ChunkRow.mk (base + p.2) p.1)
      = (Prod.fst : κ × Nat → κ) := rfl
  rw [h]
  exact List.map_fst_zip _ _ (by simp)

/-- The metadata rows built for the new keys carry the consecutive ids
base, base+1, ... -/
theorem newRows_ids {κ : Type} (keys : List κ) (base : Nat) :
    (((keys.zip (List.range keys.length)).map
      (fun p => ChunkRow.mk (base + p.2) p.1)).map (fun r => r.id)) =
      (List.range keys.length).map (fun n => base + n) := by
  rw [List.map_map]
  have h : ((fun r : ChunkRow κ => r.id) ∘ fun p : κ × Nat => ChunkRow.mk (base + p.2) p.1)
      = ((fun n => base + n) ∘ (Prod.snd : κ × Nat → Nat)) := rfl
  rw [h, ← List.map_map, List.map_snd_zip _ _ (by simp)]

/-- In a list whose f-images are duplicate free, filtering for the f-image
of a member finds exactly that member. -/
theorem filter_key_singleton {α κ : Type} [DecidableEq κ] (f : α → κ) :
    ∀ (l : List α) (r : α), (l.map f).Nodup → r ∈ l →
      l.filter (fun x => f x = f r) = [r] := by
  intro l
  induction l with
  | nil => intro r _ hr; cases hr
  | cons a as ih =>
    intro r hnd hr
    rw [List.map_cons, List.nodup_cons] at hnd
    obtain ⟨hfa, hnd2⟩ := hnd
    rcases List.mem_cons.mp hr with rfl | hr2
    · rw [List.filter_cons_of_pos (by simp)]
      have hrest : as.filter (fun x => f x = f r) = [] := by
        rw [List.filter_eq_nil_iff]
        intro x hx
        simp only [decide_eq_true_eq]
        intro hfx
        exact hfa (hfx ▸ List.mem_map_of_mem f hx)
      rw [hrest]
    · have hne : ¬ (f a = f r) := fun he => hfa (he ▸ List.mem_map_of_mem f hr2)
      rw [List.filter_cons_of_neg (by simpa using hne)]
      exact ih r hnd2 hr2

/-- When chunk row ids are duplicate free, the id-to-hash map inverts the
hash-to-id map. -/
theorem chunkHashOfId_of_chunkIdOfHash {κ : Type} [DecidableEq κ]
    {rows : List (ChunkRow κ)} (hnd : (rows.map (fun r => r.id)).Nodup)
    {k : κ} {i : Nat} (h : chunkIdOfHash rows k = some i) :
    chunkHashOfId rows i = some k := by
  unfold chunkIdOfHash at h
  cases hlast : (rows.filter (fun r => r.hash = k)).getLast? with
  | none => rw [hlast] at h; simp at h
  | some r =>
    rw [hlast] at h
    have h2 : r.id = i := by simpa using h
    have hrmem : r ∈ rows.filter (fun x => x.hash = k) := List.mem_of_mem_getLast? hlast
    have hr : r ∈ rows := (List.mem_filter.mp hrmem).1
    have hrk : r.hash = k := by simpa using (List.mem_filter.mp hrmem).2
    unfold chunkHashOfId
    have hsingle : rows.filter (fun x => x.id = r.id) = [r] :=
      filter_key_singleton (fun x => x.id) rows r hnd hr
    rw [← h2, hsingle]
    simp [hrk]

/-- A successful store_blob preserves the structural invariant. -/
theorem storeBlob_baseInv {κ H : Type} [DecidableEq κ] [DecidableEq H]
    (chunker : Bytes → List (κ × Bytes)) (hashB : Bytes → H)
    (hashC : Bytes → κ) (compress : Bytes → Bytes)
    (hkeys : ∀ (b : Bytes), ∀ q ∈ chunker b, q.1 = hashC q.2)
    {st st2 : DoopState κ H} {idf : String} {data : Bytes}
    (hinv : BaseInv hashC compress st)
    (hok : storeBlob chunker hashB compress st idf data = .ok st2) :
    BaseInv hashC compress st2 := by
  obtain ⟨hids, hlt, hhashes, hstore⟩ := hinv
  unfold storeBlob at hok
  by_cases hany : st.blobs.any (fun b => b.identifier = idf)
  · rw [if_pos hany] at hok
    cases hok
  rw [if_neg hany] at hok
  dsimp only at hok
  split at hok
  · cases hok
  rename_i bc hmapM
  cases hok
  constructor
  · -- row ids stay duplicate free
    rw [List.map_append, newRows_ids]
    refine List.Nodup.append hids (List.Nodup.map (fun a b hab => by omega) (List.nodup_range _)) ?_
    intro a ha hb
    have h1 : a < st.nextChunkId := by
      obtain ⟨r, hr, hra⟩ := List.mem_map.mp ha
      exact hra ▸ hlt r hr
    obtain ⟨n, hn, hna⟩ := List.mem_map.mp hb
    omega
  refine ⟨?_, ?_, ?_⟩
  · -- row ids below the advanced counter
    intro r hr
    rcases List.mem_append.mp hr with hr1 | hr2
    · have := hlt r hr1
      dsimp only
      omega
    · obtain ⟨⟨a, j⟩, hp, hpr⟩ := List.mem_map.mp hr2
      have hsnd := (List.of_mem_zip hp).2
      rw [List.mem_range] at hsnd
      cases hpr
      dsimp only
      rw [List.length_map, List.length_zip, List.length_range, Nat.min_self]
      omega
  · -- row hashes stay duplicate free
    rw [List.map_append, newRows_hashes]
    refine List.Nodup.append hhashes ((pyDedup_nodup _).filter _) ?_
    intro a ha hb
    have hmem := List.mem_filter.mp hb
    have hnot := hmem.2
    simp only [decide_eq_true_eq] at hnot
    refine hnot ?_
    rw [List.any_eq_true]
    obtain ⟨r, hr, hra⟩ := List.mem_map.mp ha
    exact ⟨r, hr, by simp [hra]⟩
  · -- stored values remain compressions of preimages of their keys
    intro p hp
    rcases mem_store_putBatch compress (chunker data) st.kv p hp with h1 | h1
    · exact hstore p h1
    · obtain ⟨q, hq, hpq⟩ := h1
      refine ⟨q.2, ?_, ?_⟩
      · rw [hpq]
        exact (hkeys data q hq).symm
      · rw [hpq]

/-- A successful delete_blob preserves the structural invariant. -/
theorem deleteBlob_baseInv {κ H : Type} [DecidableEq κ] [DecidableEq H]
    (hashC : Bytes → κ) (compress : Bytes → Bytes)
    {st st2 : DoopState κ H} {idf : String}
    (hinv : BaseInv hashC compress st)
    (hok : deleteBlob st idf = .ok st2) :
    BaseInv hashC compress st2 := by
  obtain ⟨hids, hlt, hhashes, hstore⟩ := hinv
  unfold deleteBlob at hok
  split at hok
  · cases hok
  cases hok
  refine ⟨hids, hlt, hhashes, ?_⟩
  intro p hp
  exact hstore p (mem_store_deleteBatch _ _ p hp)

/-- Every reachable blob-store state satisfies the structural invariant,
provided the chunker keys its chunks by their hash. -/
theorem reachable_baseInv {κ H : Type} [DecidableEq κ] [DecidableEq H]
    {chunker : Bytes → List (κ × Bytes)} {hashB : Bytes → H}
    {compress : Bytes → Bytes} (hashC : Bytes → κ)
    (hkeys : ∀ (b : Bytes), ∀ q ∈ chunker b, q.1 = hashC q.2)
    {st : DoopState κ H} (h : Reachable chunker hashB compress st) :
    BaseInv hashC compress st := by
  induction h with
  | initial =>
    refine ⟨?_, ?_, ?_, ?_⟩ <;> simp [DoopState.initial]
  | store hr hok ih => exact storeBlob_baseInv _ _ hashC _ hkeys ih hok
  | delete hr hok ih => exact deleteBlob_baseInv hashC _ ih hok

/-- Claim C2: for every identifier not already present in the store and
every byte string B (including the empty one), retrieve_blob after a
successful store_blob of B under that identifier returns exactly B.  The
hypotheses are the contracts of the configured pieces: decompression
inverts compression, the chunker keys each chunk by its hash, chunk
concatenation reproduces the input, and the chunk hash is collision free;
the starting state is any state reachable through the public API (a fresh
identifier makes store_blob succeed, which the hypothesis hok captures). -/
theorem c2_store_retrieve_roundtrip
    {κ H : Type} [DecidableEq κ] [DecidableEq H]
    (chunker : Bytes → List (κ × Bytes)) (hashB : Bytes → H) (hashC : Bytes → κ)
    (compress decompress : Bytes → Bytes)
    (hcomp : ∀ b, decompress (compress b) = b)
    (hkeys : ∀ (b : Bytes), ∀ q ∈ chunker b, q.1 = hashC q.2)
    (hconcat : ∀ b, ((chunker b).map Prod.snd).flatten = b)
    (hinj : Function.Injective hashC)
    {st st2 : DoopState κ H} {idf : String} {B : Bytes}
    (hreach : Reachable chunker hashB compress st)
    (hok : storeBlob chunker hashB compress st idf B = .ok st2) :
    retrieveBlob hashB decompress st2 idf = .ok B := by
  have hinv := reachable_baseInv hashC hkeys hreach
  have hinv2 := storeBlob_baseInv chunker hashB hashC compress hkeys hinv hok
  obtain ⟨hids, hlt, hhashes, hstore⟩ := hinv
  unfold storeBlob at hok
  by_cases hany : st.blobs.any (fun b => b.identifier = idf)
  · rw [if_pos hany] at hok; cases hok
  rw [if_neg hany] at hok
  dsimp only at hok
  split at hok
  · cases hok
  rename_i bc hmapM
  have hst2 := Except.ok.inj hok
  have hrows2 := congrArg DoopState.chunkRows hst2
  have hkv2 := congrArg DoopState.kv hst2
  have hblobs2 := congrArg DoopState.blobs hst2
  dsimp only at hrows2 hkv2 hblobs2
  rw [hrows2] at hmapM
  have hnd2 : (st2.chunkRows.map (fun r => r.id)).Nodup := hinv2.1
  -- the freshly stored blob row is the one found for the identifier
  have hfind : (st.blobs ++ [BlobRow.mk idf (hashB B) bc]).find?
      (fun b => b.identifier = idf) = some (BlobRow.mk idf (hashB B) bc) := by
    rw [List.find?_append]
    have h1 : st.blobs.find? (fun b => b.identifier = idf) = none := by
      rw [List.find?_eq_none]
      intro x hx
      simp only [decide_eq_true_eq]
      intro hxe
      exact hany (List.any_eq_true.mpr ⟨x, hx, by simp [hxe]⟩)
    rw [h1]
    simp [List.find?]
  -- the id-to-hash pass inverts the hash-to-id pass
  have hf := (mapM_option_some (chunkIdOfHash st2.chunkRows)
    ((chunker B).map Prod.fst) bc).mp hmapM
  have hf2 : List.Forall₂ (fun i k => chunkHashOfId st2.chunkRows i = some k)
      bc ((chunker B).map Prod.fst) :=
    List.Forall₂.flip
      (List.Forall₂.imp (fun k i h => chunkHashOfId_of_chunkIdOfHash hnd2 h) hf)
  have hmapM2 : bc.mapM (chunkHashOfId st2.chunkRows) = some ((chunker B).map Prod.fst) :=
    (mapM_option_some _ _ _).mpr hf2
  -- every chunk key fetches its chunk back
  have hget : ∀ q ∈ chunker B, KVStore.get decompress st2.kv q.1 = some q.2 := by
    intro q hq
    show (dictGet st2.kv.store q.1).map decompress = some q.2
    rw [← hkv2, dictGet_putBatch]
    cases hv : dictGet st.kv.store q.1 with
    | some v =>
      obtain ⟨c, hc1, hc2⟩ := hstore _ (dictGet_mem hv)
      have hq1 : q.1 = hashC q.2 := hkeys B q hq
      have hcq : c = q.2 := hinj (by rw [hc1, hq1])
      subst hcq
      have hv2 : v = compress q.2 := hc2
      rw [hv2]
      simp [hcomp]
    | none =>
      have hsome : ((chunker B).find? (fun p => p.1 = q.1)).isSome := by
        rw [List.find?_isSome]
        exact ⟨q, hq, by simp⟩
      obtain ⟨p, hp⟩ := Option.isSome_iff_exists.mp hsome
      have hpmem := List.mem_of_find?_eq_some hp
      have hpq : p.1 = q.1 := by simpa using List.find?_some hp
      have hp2 : p.2 = q.2 := by
        refine hinj ?_
        rw [← hkeys B p hpmem, ← hkeys B q hq, hpq]
      dsimp only
      rw [hp]
      simp [hp2, hcomp]
  -- join of the get_batch is the original blob
  have hfa : List.Forall₂ (fun k v => KVStore.get decompress st2.kv k = some v)
      ((chunker B).map Prod.fst) ((chunker B).map Prod.snd) := by
    rw [List.forall₂_map_left_iff, List.forall₂_map_right_iff, List.forall₂_same]
    intro q hq
    exact hget q hq
  have hgetb : joinOpt (st2.kv.getBatch decompress ((chunker B).map Prod.fst)) = some B := by
    have h := joinOpt_of_forall₂ (KVStore.get decompress st2.kv) hfa
    rw [hconcat B] at h
    exact h
  -- assemble retrieve_blob
  unfold retrieveBlob
  rw [← hblobs2, hfind]
  dsimp only
  rw [hmapM2]
  dsimp only
  rw [show KVStore.getBatch decompress st2.kv ((chunker B).map Prod.fst)
      = (st2.kv.getBatch decompress ((chunker B).map Prod.fst)) from rfl, hgetb]
  dsimp only
  simp

theorem c2_store_retrieve_roundtrip_witness :
    retrieveBlob (id : Bytes → Bytes) id Runs.c2wState "b1" = .ok [7, 7] :=
  c2_store_retrieve_roundtrip Runs.c2wChunker id id id id
    (fun _ => rfl)
    (fun b q hq => by
      simp only [Runs.c2wChunker, List.mem_singleton] at hq
      simp [hq])
    (fun b => by simp [Runs.c2wChunker])
    (fun _ _ h => h)
    Reachable.initial
    (by decide)


/-- The depth-first search of has_cyclic_dependency returns ok false and
restores the stack when started at a known node over a map whose
dependencies stay inside the map and strictly descend in rank, the stack
holds only unknown or higher-ranked nodes, and the fuel dominates the
rank-bounded call nesting; visited only grows by known nodes. -/
theorem dfs_ok (itemMap : List (String × Item)) (rank : String → Nat) (D : Nat)
    (hD : ∀ k it, dictGet itemMap k = some it → it.dependencies.length + 2 ≤ D)
    (hclosed : ∀ k it, dictGet itemMap k = some it →
      ∀ d ∈ it.dependencies, (dictGet itemMap d).isSome = true ∧ rank d < rank k) :
    ∀ fuel : Nat,
      (∀ n st, (dictGet itemMap n).isSome = true →
        (∀ s ∈ st.stack, dictGet itemMap s = none ∨ rank n < rank s) →
        (rank n + 1) * D ≤ fuel →
        ∃ st2, dfsVisit itemMap fuel n st = .ok (false, st2) ∧ st2.stack = st.stack ∧
          (∀ x ∈ st2.visited, x ∈ st.visited ∨ (dictGet itemMap x).isSome = true)) ∧
      (∀ deps st rn, (∀ d ∈ deps, (dictGet itemMap d).isSome = true ∧ rank d < rn) →
        (∀ s ∈ st.stack, dictGet itemMap s = none ∨ rn ≤ rank s) →
        rn * D + deps.length + 1 ≤ fuel →
        ∃ st2, dfsVisitList itemMap fuel deps st = .ok (false, st2) ∧ st2.stack = st.stack ∧
          (∀ x ∈ st2.visited, x ∈ st.visited ∨ (dictGet itemMap x).isSome = true)) := by
  intro fuel
  induction fuel with
  | zero =>
    constructor
    · intro n st hn hstack hfuel
      obtain ⟨it, hit⟩ := Option.isSome_iff_exists.mp hn
      have hD2 := hD n it hit
      rcases Nat.mul_eq_zero.mp (Nat.le_zero.mp hfuel) with h | h <;> omega
    · intro deps st rn hdeps hstack hfuel
      omega
  | succ fu ih =>
    obtain ⟨ihv, ihl⟩ := ih
    constructor
    · intro n st hn hstack hfuel
      obtain ⟨it, hit⟩ := Option.isSome_iff_exists.mp hn
      have hlen := hD n it hit
      have hnstack : n ∉ st.stack := by
        intro hmem
        rcases hstack n hmem with h | h
        · rw [hit] at h; cases h
        · omega
      by_cases hnvis : n ∈ st.visited
      · refine ⟨st, ?_, rfl, fun x hx => Or.inl hx⟩
        rw [dfsVisit]
        rw [if_neg hnstack, if_pos hnvis]
      · obtain ⟨m, hm⟩ : ∃ m, rank n * D = m := ⟨_, rfl⟩
        rw [Nat.succ_mul, hm] at hfuel
        have hlist := ihl it.dependencies
          { visited := n :: st.visited, stack := n :: st.stack } (rank n)
          (fun d hd => hclosed n it hit d hd)
          (fun s hs => by
            rcases List.mem_cons.mp hs with rfl | hs2
            · exact Or.inr (le_refl _)
            · rcases hstack s hs2 with h | h
              · exact Or.inl h
              · exact Or.inr (Nat.le_of_lt h))
          (by rw [hm]; omega)
        obtain ⟨st2, hrun, hstk, hvis⟩ := hlist
        refine ⟨{ st2 with stack := st2.stack.erase n }, ?_, ?_, ?_⟩
        · rw [dfsVisit]
          rw [if_neg hnstack, if_neg hnvis, hit]
          dsimp only
          rw [hrun]
        · rw [hstk]
          exact List.erase_cons_head n st.stack
        · intro x hx
          rcases hvis x hx with hx2 | hx2
          · rcases List.mem_cons.mp hx2 with rfl | hx3
            · exact Or.inr hn
            · exact Or.inl hx3
          · exact Or.inr hx2
    · intro deps st rn hdeps hstack hfuel
      obtain ⟨m, hm⟩ : ∃ m, rn * D = m := ⟨_, rfl⟩
      rw [hm] at hfuel
      cases deps with
      | nil =>
        refine ⟨st, ?_, rfl, fun x hx => Or.inl hx⟩
        rw [dfsVisitList]
      | cons d rest =>
        obtain ⟨hdknown, hdrank⟩ := hdeps d (List.mem_cons_self _ _)
        have hdfuel : (rank d + 1) * D ≤ fu := by
          have h1 : (rank d + 1) * D ≤ rn * D := Nat.mul_le_mul_right D hdrank
          rw [hm] at h1
          simp only [List.length_cons] at hfuel
          omega
        have hvd := ihv d st hdknown
          (fun s hs => by
            rcases hstack s hs with h | h
            · exact Or.inl h
            · exact Or.inr (lt_of_lt_of_le hdrank h))
          hdfuel
        obtain ⟨st2, hrun, hstk, hvis⟩ := hvd
        have hrest := ihl rest st2 rn
          (fun x hx => hdeps x (List.mem_cons_of_mem _ hx))
          (fun s hs => hstack s (hstk ▸ hs))
          (by rw [hm]; simp only [List.length_cons] at hfuel; omega)
        obtain ⟨st3, hrun3, hstk3, hvis3⟩ := hrest
        refine ⟨st3, ?_, by rw [hstk3, hstk], ?_⟩
        · rw [dfsVisitList, hrun]
          exact hrun3
        · intro x hx
          rcases hvis3 x hx with h | h
          · exact hvis x h
          · exact Or.inr h

/-- When the dependency list holds an id unknown to the map (and the new
item's own id, the only thing on the search stack, is not among the
dependencies), the loop of has_cyclic_dependency reaches the first unknown
dependency and fails with its KeyError. -/
theorem dfsVisitList_keyError (itemMap : List (String × Item)) (rank : String → Nat)
    (D : Nat) (itemId : String) (N : Nat)
    (hD : ∀ k it, dictGet itemMap k = some it → it.dependencies.length + 2 ≤ D)
    (hclosed : ∀ k it, dictGet itemMap k = some it →
      ∀ d ∈ it.dependencies, (dictGet itemMap d).isSome = true ∧ rank d < rank k)
    (hitem : dictGet itemMap itemId = none)
    (hrb : ∀ k, (dictGet itemMap k).isSome = true → rank k < N) :
    ∀ (deps : List String) (fuel : Nat) (st : DfsState),
      (∃ d ∈ deps, dictGet itemMap d = none) →
      (∀ d ∈ deps, d ≠ itemId) →
      (∀ s ∈ st.stack, s = itemId) →
      (∀ x ∈ st.visited, (dictGet itemMap x).isSome = true ∨ x = itemId) →
      N * D + deps.length + 1 ≤ fuel →
      ∃ u, dfsVisitList itemMap fuel deps st = .error (.keyError u) ∧
        dictGet itemMap u = none := by
  intro deps
  induction deps with
  | nil =>
    intro fuel st hex
    simp at hex
  | cons d rest ih =>
    intro fuel st hex huid hstack hvis hfuel
    obtain ⟨m, hm⟩ : ∃ m, N * D = m := ⟨_, rfl⟩
    rw [hm] at hfuel
    simp only [List.length_cons] at hfuel
    obtain ⟨fu, rfl⟩ : ∃ fu, fuel = fu + 1 := ⟨fuel - 1, by omega⟩
    cases hdg : dictGet itemMap d with
    | none =>
      -- the first unknown dependency raises KeyError d
      obtain ⟨f2, rfl⟩ : ∃ f2, fu = f2 + 1 := ⟨fu - 1, by omega⟩
      refine ⟨d, ?_, hdg⟩
      rw [dfsVisitList]
      have hdstack : d ∉ st.stack := fun hmem => huid d (List.mem_cons_self _ _) (hstack d hmem)
      have hdvis : d ∉ st.visited := by
        intro hmem
        rcases hvis d hmem with h | h
        · rw [hdg] at h; cases h
        · exact huid d (List.mem_cons_self _ _) h
      rw [dfsVisit, if_neg hdstack, if_neg hdvis, hdg]
    | some it =>
      -- a known dependency explores cleanly and the loop continues
      have hdfuel : (rank d + 1) * D ≤ fu := by
        have h1 : (rank d + 1) * D ≤ N * D :=
          Nat.mul_le_mul_right D (hrb d (by rw [hdg]; rfl))
        rw [hm] at h1
        omega
      obtain ⟨st2, hrun, hstk, hvisg⟩ :=
        (dfs_ok itemMap rank D hD hclosed fu).1 d st (by rw [hdg]; rfl)
          (fun s hs => Or.inl (hstack s hs ▸ hitem))
          hdfuel
      obtain ⟨u, hrun3, hu⟩ := ih fu st2
        (by
          obtain ⟨d2, hd2, hd2u⟩ := hex
          rcases List.mem_cons.mp hd2 with rfl | hd2r
          · rw [hdg] at hd2u; cases hd2u
          · exact ⟨d2, hd2r, hd2u⟩)
        (fun x hx => huid x (List.mem_cons_of_mem _ hx))
        (fun s hs => hstack s (hstk ▸ hs))
        (fun x hx => by
          rcases hvisg x hx with h | h
          · exact hvis x h
          · exact Or.inl h)
        (by rw [hm]; omega)
      refine ⟨u, ?_, hu⟩
      rw [dfsVisitList, hrun]
      exact hrun3

/-- has_cyclic_dependency on a dependency list holding an unknown id: the
search dereferences the unknown id and fails with KeyError (the budget the
source computes always suffices to reach it). -/
theorem hasCyclicDependency_keyError (itemMap : List (String × Item))
    (rank : String → Nat) (itemId : String) (deps : List String)
    (hclosed : ∀ k it, dictGet itemMap k = some it →
      ∀ d ∈ it.dependencies, (dictGet itemMap d).isSome = true ∧ rank d < rank k)
    (hrb : ∀ k, (dictGet itemMap k).isSome = true → rank k < itemMap.length)
    (hitem : dictGet itemMap itemId = none)
    (hex : ∃ d ∈ deps, dictGet itemMap d = none)
    (huid : itemId ∉ deps) :
    ∃ u, hasCyclicDependency itemMap itemId deps = .error (.keyError u) ∧
      dictGet itemMap u = none := by
  have hD : ∀ k it, dictGet itemMap k = some it →
      it.dependencies.length + 2 ≤ (itemMap.map (fun e => e.2.dependencies.length + 2)).sum + 2 := by
    intro k it hit
    have hmem : (k, it) ∈ itemMap := dictGet_mem hit
    have := List.single_le_sum (l := itemMap.map (fun e => e.2.dependencies.length + 2))
      (fun x _ => Nat.zero_le x) (it.dependencies.length + 2)
      (List.mem_map_of_mem _ hmem)
    omega
  obtain ⟨u, hrun, hu⟩ := dfsVisitList_keyError itemMap rank
    ((itemMap.map (fun e => e.2.dependencies.length + 2)).sum + 2) itemId itemMap.length
    hD hclosed hitem hrb deps (dfsFuelBudget itemMap deps)
    { visited := [itemId], stack := [itemId] }
    hex
    (fun d hd hdi => huid (hdi ▸ hd))
    (fun s hs => by simpa using hs)
    (fun x hx => Or.inr (by simpa using hx))
    (by
      rw [dfsFuelBudget]
      rw [Nat.succ_mul]
      omega)
  refine ⟨u, ?_, hu⟩
  rw [hasCyclicDependency]
  rw [hrun]

/-- Claim C10: a push whose dependency list names an id absent from the
id-to-item map does not raise CyclicDependency and is not accepted: the
cyclic-dependency search dereferences an unknown id (self.item_map[node])
and push surfaces the KeyError.  The hypotheses state the scenario: a
valid spec with default deadline and maturation, an item map whose
dependencies stay inside the map and descend in rank (true of every queue
built through push, which validates dependencies before inserting), a
fresh uuid for the new item, and some dependency unknown to the map. -/
theorem c10_push_unknown_dependency_raises_keyerror
    (fpow : ℚ → ℚ → ℚ) (q : ApriQueue) (spec : ItemSpec) (now : ℚ)
    (itemId gid : String) (rank : String → Nat)
    (hp : 0 ≤ spec.priority) (hj0 : 0 ≤ spec.jitter) (hj1 : spec.jitter ≤ 1)
    (hdl : spec.deadline = none) (hmat : spec.matures = none)
    (hclosed : ∀ k it, dictGet q.item_map k = some it →
      ∀ d ∈ it.dependencies, (dictGet q.item_map d).isSome = true ∧ rank d < rank k)
    (hrb : ∀ k, (dictGet q.item_map k).isSome = true → rank k < q.item_map.length)
    (hitem : dictGet q.item_map itemId = none)
    (hex : ∃ d ∈ spec.dependencies, dictGet q.item_map d = none)
    (huid : itemId ∉ spec.dependencies) :
    ∃ u, (ApriQueue.push fpow q spec now itemId gid).2 = .error (.keyError u) ∧
      dictGet q.item_map u = none := by
  have hcpos : (0 : ℚ) < Rat.ofInt 31449600 := by decide
  have hinit : ∀ sp : ItemSpec, sp.priority = spec.priority → sp.jitter = spec.jitter →
      sp.deadline = spec.deadline → sp.matures = spec.matures →
      sp.dependencies = spec.dependencies →
      ∃ it, Item.init sp now itemId = .ok it ∧
        it.deadline = some (qadd now (Rat.ofInt 31449600)) ∧
        it.matures = some now ∧ it.id = itemId ∧ it.dependencies = spec.dependencies := by
    intro sp h1 h2 h3 h4 h5
    rw [Item.init]
    rw [if_neg (fun hq => absurd ((qlt_iff _ _).mp hq) (not_lt.mpr (h1 ▸ hp)))]
    rw [if_neg (fun hq => by
      rcases Bool.or_eq_true _ _ |>.mp hq with hq | hq
      · exact absurd ((qlt_iff _ _).mp hq) (not_lt.mpr (h2 ▸ hj0))
      · exact absurd ((qlt_iff _ _).mp hq) (not_lt.mpr (h2 ▸ hj1)))]
    refine ⟨_, rfl, ?_, ?_, ?_, ?_⟩
    · rw [Item.updateMatureTime]
      rw [if_neg (by norm_num)]
      rw [h3, hdl]
      rfl
    · rw [Item.updateMatureTime]
      rw [if_neg (by norm_num)]
      rw [h4, hmat]
      rfl
    · rw [Item.updateMatureTime]
      rw [if_neg (by norm_num)]
    · rw [Item.updateMatureTime]
      rw [if_neg (by norm_num)]
      exact h5
  have hnotlt : ¬ (qlt (qadd now (Rat.ofInt 31449600)) now = true) := by
    intro hq
    have h := (qlt_iff _ _).mp hq
    rw [qadd_eq] at h
    linarith
  obtain ⟨u, hcyc, hu⟩ := hasCyclicDependency_keyError q.item_map rank itemId
    spec.dependencies hclosed hrb hitem hex huid
  have hres : ((q.resolveDefaultGroup now gid).1).item_map = q.item_map := by
    rw [ApriQueue.resolveDefaultGroup]
    cases q.default_group_id <;> rfl
  refine ⟨u, ?_, hu⟩
  rw [ApriQueue.push]
  rcases hg : spec.group with _ | g0
  all_goals simp only
  case none =>
    obtain ⟨it, hit, hitd, hitm, hiti, hideps⟩ :=
      hinit { spec with group := some (q.resolveDefaultGroup now gid).2 } rfl rfl rfl rfl rfl
    rw [hit]
    simp only
    rw [if_neg (fun hc => hnotlt (by rw [hitd] at hc; exact hc.2))]
    rw [if_neg (fun hc => hnotlt (by rw [hitd, hitm] at hc; exact hc.2.2))]
    rw [hres, hiti, hideps, hcyc]
  case some =>
    obtain ⟨it, hit, hitd, hitm, hiti, hideps⟩ := hinit spec rfl rfl rfl rfl rfl
    rw [hit]
    simp only
    rw [if_neg (fun hc => hnotlt (by rw [hitd] at hc; exact hc.2))]
    rw [if_neg (fun hc => hnotlt (by rw [hitd, hitm] at hc; exact hc.2.2))]
    rw [hiti, hideps, hcyc]

theorem c10_push_unknown_dependency_raises_keyerror_witness :
    ∃ u, (ApriQueue.push Runs.fpowD ApriQueue.initial
        { priority := 1, dependencies := ["d1"] } 0 "i1" "g1").2 =
          .error (.keyError u) ∧
      dictGet ApriQueue.initial.item_map u = none :=
  c10_push_unknown_dependency_raises_keyerror Runs.fpowD ApriQueue.initial
    { priority := 1, dependencies := ["d1"] } 0 "i1" "g1" (fun _ => 0)
    (by norm_num) (by norm_num [mkRat]) (by norm_num [mkRat]) rfl rfl
    (by intro k it hit; simp [ApriQueue.initial, dictGet] at hit)
    (by intro k hk; simp [ApriQueue.initial, dictGet] at hk)
    rfl
    ⟨"d1", by simp, rfl⟩
    (by simp)


/-- rcGet through dictSet. -/
theorem rcGet_dictSet {κ : Type} [DecidableEq κ] (rc : List (κ × Int)) (key k : κ) (v : Int) :
    rcGet (dictSet rc key v) k = if key = k then v else rcGet rc k := by
  rw [rcGet, dictGet_dictSet]
  by_cases h : key = k <;> simp [h, rcGet]

/-- dictDel is a sublist of the dict. -/
theorem dictDel_sublist_self {α β : Type} [DecidableEq α] (d : List (α × β)) (k : α) :
    (dictDel d k).Sublist d := by
  induction d with
  | nil => simp [dictDel]
  | cons q rest ih =>
    obtain ⟨a, b⟩ := q
    by_cases hak : a = k
    · simp only [dictDel, if_pos hak]
      exact (List.sublist_cons_self _ _)
    · simp only [dictDel, if_neg hak]
      exact List.Sublist.cons₂ _ ih

/-- dictGet of a key distinct from the deleted one is unchanged. -/
theorem dictGet_dictDel_ne {α β : Type} [DecidableEq α] (d : List (α × β)) {key k : α}
    (hne : key ≠ k) : dictGet (dictDel d key) k = dictGet d k := by
  induction d with
  | nil => rfl
  | cons q rest ih =>
    obtain ⟨a, b⟩ := q
    by_cases hak : a = key
    · subst hak
      rw [dictDel, if_pos rfl, dictGet, if_neg hne]
    · simp only [dictDel, if_neg hak]
      by_cases hk : a = k
      · subst hk
        rw [dictGet, dictGet, if_pos rfl, if_pos rfl]
      · rw [dictGet, dictGet, if_neg hk, if_neg hk]
        exact ih

/-- Keys absent from the key list are absent from the dict. -/
theorem dictGet_eq_none {α β : Type} [DecidableEq α] {d : List (α × β)} {k : α}
    (h : k ∉ d.map Prod.fst) : dictGet d k = none := by
  induction d with
  | nil => rfl
  | cons q rest ih =>
    obtain ⟨a, b⟩ := q
    rw [List.map_cons, List.mem_cons] at h
    push_neg at h
    rw [dictGet, if_neg (fun he => h.1 he.symm)]
    exact ih h.2

/-- With unique keys, deleting a key removes it. -/
theorem dictGet_dictDel_self {α β : Type} [DecidableEq α] {d : List (α × β)} {k : α}
    (hnd : (d.map Prod.fst).Nodup) : dictGet (dictDel d k) k = none := by
  induction d with
  | nil => rfl
  | cons q rest ih =>
    obtain ⟨a, b⟩ := q
    rw [List.map_cons, List.nodup_cons] at hnd
    by_cases hak : a = k
    · subst hak
      rw [dictDel, if_pos rfl]
      exact dictGet_eq_none hnd.1
    · rw [dictDel, if_neg hak, dictGet, if_neg hak]
      exact ih hnd.2

/-- dictSet keeps the keys duplicate free. -/
theorem keys_dictSet_nodup {α β : Type} [DecidableEq α] {d : List (α × β)} (k : α) (v : β)
    (hnd : (d.map Prod.fst).Nodup) : ((dictSet d k v).map Prod.fst).Nodup := by
  induction d with
  | nil => simp [dictSet]
  | cons q rest ih =>
    obtain ⟨a, b⟩ := q
    rw [List.map_cons, List.nodup_cons] at hnd
    by_cases hak : a = k
    · subst hak
      rw [dictSet, if_pos rfl, List.map_cons, List.nodup_cons]
      exact hnd
    · rw [dictSet, if_neg hak, List.map_cons, List.nodup_cons]
      refine ⟨?_, ih hnd.2⟩
      intro hmem
      obtain ⟨p, hp, hpa⟩ := List.mem_map.mp hmem
      rcases mem_dictSet hp with rfl | hpd
      · exact hak hpa.symm
      · exact hnd.1 (List.mem_map.mpr ⟨p, hpd, hpa⟩)

/-- put keeps both key lists duplicate free. -/
theorem put_keys_nodup {κ : Type} [DecidableEq κ] (compress : Bytes → Bytes)
    (kv : KVStore κ) (key : κ) (val : Bytes)
    (h1 : (kv.store.map Prod.fst).Nodup) (h2 : (kv.reference_count.map Prod.fst).Nodup) :
    (((KVStore.put compress kv key val).store.map Prod.fst).Nodup ∧
      ((KVStore.put compress kv key val).reference_count.map Prod.fst).Nodup) := by
  unfold KVStore.put KVStore.putRaw
  split
  · exact ⟨h1, keys_dictSet_nodup _ _ h2⟩
  · exact ⟨keys_dictSet_nodup _ _ h1, keys_dictSet_nodup _ _ h2⟩

/-- put_batch keeps both key lists duplicate free. -/
theorem putBatch_keys_nodup {κ : Type} [DecidableEq κ] (compress : Bytes → Bytes)
    (items : List (κ × Bytes)) :
    ∀ (kv : KVStore κ),
      (kv.store.map Prod.fst).Nodup → (kv.reference_count.map Prod.fst).Nodup →
      (((KVStore.putBatch compress kv items).store.map Prod.fst).Nodup ∧
        ((KVStore.putBatch compress kv items).reference_count.map Prod.fst).Nodup) := by
  induction items with
  | nil => intro kv h1 h2; exact ⟨h1, h2⟩
  | cons i is ih =>
    intro kv h1 h2
    obtain ⟨h1s, h2s⟩ := put_keys_nodup compress kv i.1 i.2 h1 h2
    exact ih (KVStore.put compress kv i.1 i.2) h1s h2s

/-- delete keeps both key lists duplicate free. -/
theorem deleteKey_keys_nodup {κ : Type} [DecidableEq κ] (kv : KVStore κ) (key : κ)
    (h1 : (kv.store.map Prod.fst).Nodup) (h2 : (kv.reference_count.map Prod.fst).Nodup) :
    (((kv.deleteKey key).store.map Prod.fst).Nodup ∧
      ((kv.deleteKey key).reference_count.map Prod.fst).Nodup) := by
  unfold KVStore.deleteKey
  split
  · dsimp only
    split
    · exact ⟨(List.Sublist.map _ (dictDel_sublist_self _ _)).nodup h1,
        (List.Sublist.map _ (dictDel_sublist_self _ _)).nodup h2⟩
    · exact ⟨h1, keys_dictSet_nodup _ _ h2⟩
  · exact ⟨h1, h2⟩

/-- delete_batch keeps both key lists duplicate free. -/
theorem deleteBatch_keys_nodup {κ : Type} [DecidableEq κ] (ks : List κ) :
    ∀ (kv : KVStore κ),
      (kv.store.map Prod.fst).Nodup → (kv.reference_count.map Prod.fst).Nodup →
      (((kv.deleteBatch ks).store.map Prod.fst).Nodup ∧
        ((kv.deleteBatch ks).reference_count.map Prod.fst).Nodup) := by
  induction ks with
  | nil => intro kv h1 h2; exact ⟨h1, h2⟩
  | cons k ks ih =>
    intro kv h1 h2
    obtain ⟨h1s, h2s⟩ := deleteKey_keys_nodup kv k h1 h2
    exact ih (kv.deleteKey k) h1s h2s

/-- Reference count through a single put. -/
theorem rcGet_put {κ : Type} [DecidableEq κ] (compress : Bytes → Bytes)
    (kv : KVStore κ) (key k : κ) (val : Bytes) :
    rcGet (KVStore.put compress kv key val).reference_count k =
      if key = k then
        (if dictMem kv.store key then rcGet kv.reference_count key + 1 else 1)
      else rcGet kv.reference_count k := by
  unfold KVStore.put KVStore.putRaw
  by_cases hm : dictMem kv.store key
  · rw [if_pos hm]
    dsimp only
    rw [rcGet_dictSet]
    by_cases hk : key = k
    · subst hk; rw [if_pos rfl, if_pos rfl, if_pos hm]
    · rw [if_neg hk, if_neg hk]
  · rw [if_neg hm]
    dsimp only
    rw [rcGet_dictSet]
    by_cases hk : key = k
    · subst hk; rw [if_pos rfl, if_pos rfl, if_neg hm]
    · rw [if_neg hk, if_neg hk]

/-- Reference count through put_batch over duplicate-free keys: one
increment per present key of the batch, an initial count of one for each
absent key of the batch. -/
theorem rcGet_putBatch {κ : Type} [DecidableEq κ] (compress : Bytes → Bytes)
    (items : List (κ × Bytes)) :
    ∀ (kv : KVStore κ) (k : κ), (items.map Prod.fst).Nodup →
      rcGet (KVStore.putBatch compress kv items).reference_count k =
        if k ∈ items.map Prod.fst then
          (if dictMem kv.store k then rcGet kv.reference_count k + 1 else 1)
        else rcGet kv.reference_count k := by
  induction items with
  | nil => intro kv k _; simp [KVStore.putBatch]
  | cons i is ih =>
    intro kv k hnd
    rw [List.map_cons, List.nodup_cons] at hnd
    have step := ih (KVStore.put compress kv i.1 i.2) k hnd.2
    have hput := rcGet_put compress kv i.1 k i.2
    by_cases hik : i.1 = k
    · subst hik
      have hknotis : i.1 ∉ is.map Prod.fst := hnd.1
      show rcGet (KVStore.putBatch compress (KVStore.put compress kv i.1 i.2) is).reference_count i.1 = _
      rw [step, if_neg hknotis, hput, if_pos rfl]
      rw [List.map_cons, if_pos (List.mem_cons_self _ _)]
    · show rcGet (KVStore.putBatch compress (KVStore.put compress kv i.1 i.2) is).reference_count k = _
      rw [step, hput, if_neg hik]
      have hmem : dictMem (KVStore.put compress kv i.1 i.2).store k = dictMem kv.store k := by
        unfold dictMem
        rw [dictGet_put, if_neg hik]
      rw [hmem, List.map_cons]
      by_cases hkis : k ∈ is.map Prod.fst
      · rw [if_pos hkis, if_pos (List.mem_cons.mpr (Or.inr hkis))]
      · rw [if_neg hkis, if_neg (by
          intro hc
          rcases List.mem_cons.mp hc with hc | hc
          · exact hik hc.symm
          · exact hkis hc)]

/-- Store membership through put_batch. -/
theorem dictMem_putBatch {κ : Type} [DecidableEq κ] (compress : Bytes → Bytes)
    (items : List (κ × Bytes)) (kv : KVStore κ) (k : κ) :
    dictMem (KVStore.putBatch compress kv items).store k = true ↔
      dictMem kv.store k = true ∨ k ∈ items.map Prod.fst := by
  unfold dictMem
  rw [dictGet_putBatch]
  cases hv : dictGet kv.store k with
  | some v => simp [hv]
  | none =>
    simp only [hv, Option.isSome_none, Bool.false_eq_true, false_or]
    constructor
    · intro h
      cases hf : (items.find? (fun q => q.1 = k)) with
      | none => rw [hf] at h; simp at h
      | some p =>
        have hp1 : p.1 = k := by simpa using List.find?_some hf
        exact hp1 ▸ List.mem_map.mpr ⟨p, List.mem_of_find?_eq_some hf, rfl⟩
    · intro h
      obtain ⟨p, hp, hp1⟩ := List.mem_map.mp h
      have : ((items.find? (fun q => q.1 = k)).isSome) := by
        rw [List.find?_isSome]
        exact ⟨p, hp, by simp [hp1]⟩
      obtain ⟨p2, hp2⟩ := Option.isSome_iff_exists.mp this
      rw [hp2]
      simp

/-- A delete at another key changes nothing at k. -/
theorem deleteKey_frame {κ : Type} [DecidableEq κ] (kv : KVStore κ) {key k : κ}
    (hne : key ≠ k) :
    dictGet (kv.deleteKey key).store k = dictGet kv.store k ∧
    rcGet (kv.deleteKey key).reference_count k = rcGet kv.reference_count k := by
  unfold KVStore.deleteKey
  split
  · dsimp only
    split
    · exact ⟨dictGet_dictDel_ne _ hne, by rw [rcGet, dictGet_dictDel_ne _ hne, rcGet]⟩
    · exact ⟨rfl, by rw [rcGet_dictSet, if_neg hne]⟩
  · exact ⟨rfl, rfl⟩

/-- Deleting a present key whose count is one removes its entries. -/
theorem deleteKey_self_zero {κ : Type} [DecidableEq κ] {kv : KVStore κ} {k : κ}
    (h1 : (kv.store.map Prod.fst).Nodup) (h2 : (kv.reference_count.map Prod.fst).Nodup)
    (hmem : dictMem kv.store k = true) (hrc : rcGet kv.reference_count k = 1) :
    dictGet (kv.deleteKey k).store k = none ∧
    rcGet (kv.deleteKey k).reference_count k = 0 := by
  unfold KVStore.deleteKey
  rw [if_pos hmem]
  dsimp only
  rw [if_pos (by rw [hrc]; norm_num)]
  exact ⟨dictGet_dictDel_self h1, by rw [rcGet, dictGet_dictDel_self h2]; rfl⟩

/-- Deleting a present key whose count exceeds one decrements it and keeps
the stored value. -/
theorem deleteKey_self_pos {κ : Type} [DecidableEq κ] {kv : KVStore κ} {k : κ}
    (hmem : dictMem kv.store k = true) (hrc : rcGet kv.reference_count k ≠ 1) :
    dictGet (kv.deleteKey k).store k = dictGet kv.store k ∧
    rcGet (kv.deleteKey k).reference_count k = rcGet kv.reference_count k - 1 := by
  unfold KVStore.deleteKey
  rw [if_pos hmem]
  dsimp only
  rw [if_neg (by intro hc; exact hrc (by omega))]
  exact ⟨rfl, by rw [rcGet_dictSet, if_pos rfl]⟩

/-- delete_batch leaves keys outside the batch untouched. -/
theorem deleteBatch_frame {κ : Type} [DecidableEq κ] (ks : List κ) :
    ∀ (kv : KVStore κ) (k : κ), k ∉ ks →
      dictGet (kv.deleteBatch ks).store k = dictGet kv.store k ∧
      rcGet (kv.deleteBatch ks).reference_count k = rcGet kv.reference_count k := by
  induction ks with
  | nil => intro kv k _; exact ⟨rfl, rfl⟩
  | cons k2 ks ih =>
    intro kv k hk
    have hne : k2 ≠ k := fun he => hk (he ▸ List.mem_cons_self _ _)
    have hstep := deleteKey_frame kv hne
    have hrest := ih (kv.deleteKey k2) k (fun hc => hk (List.mem_cons_of_mem _ hc))
    exact ⟨hrest.1.trans hstep.1, hrest.2.trans hstep.2⟩

/-- delete_batch at a present key of a duplicate-free batch: the key loses
one reference; its entries disappear exactly when the count was one. -/
theorem deleteBatch_point {κ : Type} [DecidableEq κ] (ks : List κ) :
    ∀ (kv : KVStore κ) (k : κ), ks.Nodup → k ∈ ks →
      (kv.store.map Prod.fst).Nodup → (kv.reference_count.map Prod.fst).Nodup →
      dictMem kv.store k = true →
      ((rcGet kv.reference_count k = 1 →
          dictGet (kv.deleteBatch ks).store k = none ∧
          rcGet (kv.deleteBatch ks).reference_count k = 0) ∧
       (rcGet kv.reference_count k ≠ 1 →
          dictGet (kv.deleteBatch ks).store k = dictGet kv.store k ∧
          rcGet (kv.deleteBatch ks).reference_count k =
            rcGet kv.reference_count k - 1)) := by
  induction ks with
  | nil => intro kv k _ hk; cases hk
  | cons k2 ks ih =>
    intro kv k hnd hk h1 h2 hmem
    rw [List.nodup_cons] at hnd
    by_cases hkk : k2 = k
    · subst hkk
      have hrest := deleteBatch_frame ks (kv.deleteKey k2) k2 hnd.1
      constructor
      · intro hrc
        obtain ⟨hs, hr⟩ := deleteKey_self_zero h1 h2 hmem hrc
        exact ⟨hrest.1.trans hs, hrest.2.trans hr⟩
      · intro hrc
        obtain ⟨hs, hr⟩ := deleteKey_self_pos hmem hrc
        exact ⟨hrest.1.trans hs, hrest.2.trans hr⟩
    · have hkrest : k ∈ ks := by
        rcases List.mem_cons.mp hk with h | h
        · exact absurd h.symm hkk
        · exact h
      have hstep := deleteKey_frame kv hkk
      obtain ⟨h1s, h2s⟩ := deleteKey_keys_nodup kv k2 h1 h2
      have hmem2 : dictMem (kv.deleteKey k2).store k = true := by
        unfold dictMem
        rw [hstep.1]
        exact hmem
      have hrec := ih (kv.deleteKey k2) k hnd.2 hkrest h1s h2s hmem2
      constructor
      · intro hrc
        obtain ⟨hs, hr⟩ := hrec.1 (hstep.2.trans hrc)
        exact ⟨hs, hr⟩
      · intro hrc
        obtain ⟨hs, hr⟩ := hrec.2 (fun hc => hrc ((hstep.2.symm.trans hc)))
        exact ⟨hs.trans hstep.1, hr.trans (by rw [hstep.2])⟩

/-- A Forall₂ pairs every left member with a right member. -/
theorem forall₂_mem_left {α β : Type} {R : α → β → Prop} :
    ∀ {l1 : List α} {l2 : List β}, List.Forall₂ R l1 l2 →
      ∀ {a : α}, a ∈ l1 → ∃ b ∈ l2, R a b := by
  intro l1 l2 h
  induction h with
  | nil => intro a ha; cases ha
  | cons hab htail ih =>
    intro x hx
    rcases List.mem_cons.mp hx with rfl | hx2
    · exact ⟨_, List.mem_cons_self _ _, hab⟩
    · obtain ⟨b, hb, hrb⟩ := ih hx2
      exact ⟨b, List.mem_cons_of_mem _ hb, hrb⟩

/-- A Forall₂ pairs every right member with a left member. -/
theorem forall₂_mem_right {α β : Type} {R : α → β → Prop} :
    ∀ {l1 : List α} {l2 : List β}, List.Forall₂ R l1 l2 →
      ∀ {b : β}, b ∈ l2 → ∃ a ∈ l1, R a b := by
  intro l1 l2 h
  induction h with
  | nil => intro b hb; cases hb
  | cons hab htail ih =>
    intro x hx
    rcases List.mem_cons.mp hx with rfl | hx2
    · exact ⟨_, List.mem_cons_self _ _, hab⟩
    · obtain ⟨a, ha, hra⟩ := ih hx2
      exact ⟨a, List.mem_cons_of_mem _ ha, hra⟩

/-- A successful hash-to-id lookup names an actual row. -/
theorem chunkIdOfHash_row {κ : Type} [DecidableEq κ] {rows : List (ChunkRow κ)}
    {k : κ} {i : Nat} (h : chunkIdOfHash rows k = some i) :
    ∃ r ∈ rows, r.id = i ∧ r.hash = k := by
  unfold chunkIdOfHash at h
  cases hlast : (rows.filter (fun r => r.hash = k)).getLast? with
  | none => rw [hlast] at h; cases h
  | some r =>
    rw [hlast] at h
    have h2 : r.id = i := by simpa using h
    have hrmem := List.mem_of_mem_getLast? hlast
    have hrk : r.hash = k := by simpa using (List.mem_filter.mp hrmem).2
    exact ⟨r, (List.mem_filter.mp hrmem).1, h2, hrk⟩

/-- A successful id-to-hash lookup names an actual row. -/
theorem chunkHashOfId_row {κ : Type} [DecidableEq κ] {rows : List (ChunkRow κ)}
    {k : κ} {i : Nat} (h : chunkHashOfId rows i = some k) :
    ∃ r ∈ rows, r.id = i ∧ r.hash = k := by
  unfold chunkHashOfId at h
  cases hlast : (rows.filter (fun r => r.id = i)).getLast? with
  | none => rw [hlast] at h; cases h
  | some r =>
    rw [hlast] at h
    have h2 : r.hash = k := by simpa using h
    have hrmem := List.mem_of_mem_getLast? hlast
    have hri : r.id = i := by simpa using (List.mem_filter.mp hrmem).2
    exact ⟨r, (List.mem_filter.mp hrmem).1, hri, h2⟩

/-- With unique row ids, the id-to-hash map sends a member row's id to its
hash. -/
theorem chunkHashOfId_of_mem {κ : Type} [DecidableEq κ] {rows : List (ChunkRow κ)}
    (hnd : (rows.map (fun r => r.id)).Nodup) {r : ChunkRow κ} (hr : r ∈ rows) :
    chunkHashOfId rows r.id = some r.hash := by
  unfold chunkHashOfId
  rw [filter_key_singleton (fun x => x.id) rows r hnd hr]
  rfl

/-- Appending rows whose ids all differ from cid does not change the
id-to-hash lookup of cid. -/
theorem chunkHashOfId_append_old {κ : Type} [DecidableEq κ]
    {rows newRows : List (ChunkRow κ)} {cid : Nat}
    (hnew : ∀ r ∈ newRows, ¬ (r.id = cid)) :
    chunkHashOfId (rows ++ newRows) cid = chunkHashOfId rows cid := by
  unfold chunkHashOfId
  have hnil : newRows.filter (fun r => r.id = cid) = [] := List.filter_eq_nil_iff.mpr (by
    intro a ha
    simpa using hnew a ha)
  rw [List.filter_append, hnil, List.append_nil]

/-- Pointwise-equal predicates give equal any. -/
theorem any_congr_mem {α : Type} {p q : α → Bool} :
    ∀ {l : List α}, (∀ x ∈ l, p x = q x) → l.any p = l.any q := by
  intro l
  induction l with
  | nil => intro _; rfl
  | cons a l ih =>
    intro h
    rw [List.any_cons, List.any_cons, h a (List.mem_cons_self _ _),
      ih (fun x hx => h x (List.mem_cons_of_mem _ hx))]

/-- A successful store_blob of a blob with duplicate-free chunk keys
preserves the deduplication invariant and its bookkeeping. -/
theorem storeBlob_c3inv {κ H : Type} [DecidableEq κ] [DecidableEq H]
    (chunker : Bytes → List (κ × Bytes)) (hashB : Bytes → H) (compress : Bytes → Bytes)
    {st st2 : DoopState κ H} {idf : String} {data : Bytes}
    (hinv : DedupInv st ∧ C3Aux st)
    (hdf : ((chunker data).map Prod.fst).Nodup)
    (hok : storeBlob chunker hashB compress st idf data = .ok st2) :
    DedupInv st2 ∧ C3Aux st2 := by
  obtain ⟨⟨hsk, hmemiff, hrc⟩, hrk, hrid, hridlt, hrhash, hbc⟩ := hinv
  unfold storeBlob at hok
  by_cases hany : st.blobs.any (fun b => b.identifier = idf)
  · rw [if_pos hany] at hok; cases hok
  rw [if_neg hany] at hok
  dsimp only at hok
  split at hok
  · cases hok
  rename_i bc hmapM
  have hst2 := Except.ok.inj hok
  have hrows2 := congrArg DoopState.chunkRows hst2
  have hkv2 := congrArg DoopState.kv hst2
  have hblobs2 := congrArg DoopState.blobs hst2
  have hnext2 := congrArg DoopState.nextChunkId hst2
  dsimp only at hrows2 hkv2 hblobs2 hnext2
  rw [hrows2] at hmapM
  have h2id : (st2.chunkRows.map (fun r => r.id)).Nodup := by
    rw [← hrows2, List.map_append, newRows_ids]
    refine List.Nodup.append hrid (List.Nodup.map (fun a b hab => by omega) (List.nodup_range _)) ?_
    intro a ha hb
    have h1 : a < st.nextChunkId := by
      obtain ⟨r, hr, hra⟩ := List.mem_map.mp ha
      exact hra ▸ hridlt r hr
    obtain ⟨n, hn, hna⟩ := List.mem_map.mp hb
    omega
  have h2lt : ∀ r ∈ st2.chunkRows, r.id < st2.nextChunkId := by
    intro r hr
    rw [← hrows2] at hr
    rw [← hnext2]
    rcases List.mem_append.mp hr with hr1 | hr2
    · have := hridlt r hr1
      omega
    · obtain ⟨⟨a, j⟩, hp, hpr⟩ := List.mem_map.mp hr2
      have hsnd := (List.of_mem_zip hp).2
      rw [List.mem_range] at hsnd
      cases hpr
      dsimp only
      rw [List.length_map, List.length_zip, List.length_range, Nat.min_self]
      omega
  have h2hash : (st2.chunkRows.map (fun r => r.hash)).Nodup := by
    rw [← hrows2, List.map_append, newRows_hashes]
    refine List.Nodup.append hrhash ((pyDedup_nodup _).filter _) ?_
    intro a ha hb
    have hmem := List.mem_filter.mp hb
    have hnot := hmem.2
    simp only [decide_eq_true_eq] at hnot
    refine hnot ?_
    rw [List.any_eq_true]
    obtain ⟨r, hr, hra⟩ := List.mem_map.mp ha
    exact ⟨r, hr, by simp [hra]⟩
  have hf := (mapM_option_some (chunkIdOfHash st2.chunkRows)
    ((chunker data).map Prod.fst) bc).mp hmapM
  have hnewclosed : ∀ cid ∈ bc, ∃ r ∈ st2.chunkRows, r.id = cid := by
    intro cid hcid
    obtain ⟨key, hkey, hio⟩ := forall₂_mem_right hf hcid
    obtain ⟨r, hrmem, hrid2, _⟩ := chunkIdOfHash_row hio
    exact ⟨r, hrmem, hrid2⟩
  have hpredold : ∀ (k : κ), ∀ b ∈ st.blobs,
      (b.chunks.any (fun cid => chunkHashOfId st2.chunkRows cid = some k)) =
      (b.chunks.any (fun cid => chunkHashOfId st.chunkRows cid = some k)) := by
    intro k b hb
    refine any_congr_mem (fun cid hcid => ?_)
    obtain ⟨r, hr, hrcid⟩ := hbc b hb cid hcid
    have heq : chunkHashOfId st2.chunkRows cid = chunkHashOfId st.chunkRows cid := by
      rw [← hrows2]
      apply chunkHashOfId_append_old
      intro rnew hrnew
      obtain ⟨⟨a, j⟩, hp, hpr⟩ := List.mem_map.mp hrnew
      cases hpr
      dsimp only
      have := hridlt r hr
      omega
    rw [heq]
  have hprednew : ∀ (k : κ),
      (bc.any (fun cid => chunkHashOfId st2.chunkRows cid = some k)) = true ↔
        k ∈ (chunker data).map Prod.fst := by
    intro k
    rw [List.any_eq_true]
    constructor
    · rintro ⟨cid, hcid, hh⟩
      simp only [decide_eq_true_eq] at hh
      obtain ⟨key, hkeymem, hio⟩ := forall₂_mem_right hf hcid
      have h3 := chunkHashOfId_of_chunkIdOfHash h2id hio
      rw [h3] at hh
      cases hh
      exact hkeymem
    · intro hk
      obtain ⟨cid, hcid, hio⟩ := forall₂_mem_left hf hk
      refine ⟨cid, hcid, ?_⟩
      simp only [decide_eq_true_eq]
      exact chunkHashOfId_of_chunkIdOfHash h2id hio
  have hkr : ∀ k, keyRefs st2 k = keyRefs st k +
      (if k ∈ (chunker data).map Prod.fst then 1 else 0) := by
    intro k
    unfold Doop.keyRefs
    rw [← hblobs2, List.filter_append, List.length_append]
    have hfo : st.blobs.filter
        (fun b => b.chunks.any (fun cid => chunkHashOfId st2.chunkRows cid = some k)) =
        st.blobs.filter
        (fun b => b.chunks.any (fun cid => chunkHashOfId st.chunkRows cid = some k)) :=
      List.filter_congr (fun b hb => by
        simp only [hpredold k b hb])
    rw [hfo]
    congr 1
    by_cases hkCK : k ∈ (chunker data).map Prod.fst
    · rw [if_pos hkCK]
      have hp : (BlobRow.mk idf (hashB data) bc : BlobRow κ H).chunks.any
          (fun cid => chunkHashOfId st2.chunkRows cid = some k) = true :=
        (hprednew k).mpr hkCK
      simp [hp]
    · rw [if_neg hkCK]
      have hp : ¬ ((BlobRow.mk idf (hashB data) bc : BlobRow κ H).chunks.any
          (fun cid => chunkHashOfId st2.chunkRows cid = some k) = true) :=
        fun hc => hkCK ((hprednew k).mp hc)
      simp [hp]
  have hmem2 : ∀ k, dictMem st2.kv.store k = true ↔
      dictMem st.kv.store k = true ∨ k ∈ (chunker data).map Prod.fst := by
    intro k
    rw [← hkv2]
    exact dictMem_putBatch compress (chunker data) st.kv k
  have hrc2 : ∀ k, rcGet st2.kv.reference_count k =
      if k ∈ (chunker data).map Prod.fst then
        (if dictMem st.kv.store k then rcGet st.kv.reference_count k + 1 else 1)
      else rcGet st.kv.reference_count k := by
    intro k
    rw [← hkv2]
    exact rcGet_putBatch compress (chunker data) st.kv k hdf
  refine ⟨⟨?_, ?_, ?_⟩, ?_, h2id, h2lt, h2hash, ?_⟩
  · rw [← hkv2]
    exact (putBatch_keys_nodup compress (chunker data) st.kv hsk hrk).1
  · intro k
    rw [hmem2 k, hkr k, hmemiff k]
    by_cases hkCK : k ∈ (chunker data).map Prod.fst
    · simp [hkCK]
    · simp [hkCK]
  · intro k
    rw [hrc2 k, hkr k]
    by_cases hkCK : k ∈ (chunker data).map Prod.fst
    · rw [if_pos hkCK, if_pos hkCK]
      by_cases hm : dictMem st.kv.store k = true
      · rw [if_pos hm, hrc k]
        push_cast
        ring
      · rw [if_neg hm]
        have hz : keyRefs st k = 0 := by
          by_contra hnz
          exact hm ((hmemiff k).mpr (Nat.pos_of_ne_zero hnz))
        rw [hz]
        norm_num
    · rw [if_neg hkCK, if_neg hkCK, hrc k]
      norm_num
  · rw [← hkv2]
    exact (putBatch_keys_nodup compress (chunker data) st.kv hsk hrk).2
  · intro b hb cid hcid
    rw [← hblobs2] at hb
    rcases List.mem_append.mp hb with hb1 | hb2
    · obtain ⟨r, hr, hrcid⟩ := hbc b hb1 cid hcid
      refine ⟨r, ?_, hrcid⟩
      rw [← hrows2]
      exact List.mem_append.mpr (Or.inl hr)
    · have hbeq : b = (BlobRow.mk idf (hashB data) bc : BlobRow κ H) := by simpa using hb2
      subst hbeq
      exact hnewclosed cid hcid

/-- A successful delete_blob preserves the deduplication invariant and its
bookkeeping: each key of the deleted blob loses exactly one reference and
its entries disappear exactly when that was the last one. -/
theorem deleteBlob_c3inv {κ H : Type} [DecidableEq κ] [DecidableEq H]
    {st st2 : DoopState κ H} {idf : String}
    (hinv : DedupInv st ∧ C3Aux st)
    (hok : deleteBlob st idf = .ok st2) :
    DedupInv st2 ∧ C3Aux st2 := by
  obtain ⟨⟨hsk, hmemiff, hrc⟩, hrk, hrid, hridlt, hrhash, hbc⟩ := hinv
  unfold deleteBlob at hok
  split at hok
  · cases hok
  rename_i blob hfind
  have hst2 := Except.ok.inj hok
  have hkv2 := congrArg DoopState.kv hst2
  have hblobs2 := congrArg DoopState.blobs hst2
  have hrows2 := congrArg DoopState.chunkRows hst2
  have hnext2 := congrArg DoopState.nextChunkId hst2
  dsimp only at hkv2 hblobs2 hrows2 hnext2
  have hckd : ((st.chunkRows.filter (fun r => r.id ∈ blob.chunks)).map
      (fun r => r.hash)).Nodup :=
    (List.Sublist.map _ (List.filter_sublist _)).nodup hrhash
  have hrefiff : ∀ k : κ,
      (blob.chunks.any (fun cid => chunkHashOfId st.chunkRows cid = some k)) = true ↔
      k ∈ (st.chunkRows.filter (fun r => r.id ∈ blob.chunks)).map (fun r => r.hash) := by
    intro k
    rw [List.any_eq_true]
    constructor
    · rintro ⟨cid, hcid, hh⟩
      simp only [decide_eq_true_eq] at hh
      obtain ⟨r, hrmem, hri, hrk2⟩ := chunkHashOfId_row hh
      refine List.mem_map.mpr ⟨r, List.mem_filter.mpr ⟨hrmem, ?_⟩, hrk2⟩
      simp only [decide_eq_true_eq]
      exact hri ▸ hcid
    · intro hk
      obtain ⟨r, hrf, hrk2⟩ := List.mem_map.mp hk
      obtain ⟨hrmem, hridmem⟩ := List.mem_filter.mp hrf
      simp only [decide_eq_true_eq] at hridmem
      refine ⟨r.id, hridmem, ?_⟩
      simp only [decide_eq_true_eq]
      rw [chunkHashOfId_of_mem hrid hrmem, hrk2]
  obtain ⟨a, l1, l2, hl1, hpa, hleq, herase⟩ :=
    List.exists_of_eraseP (List.mem_of_find?_eq_some hfind) (List.find?_some hfind)
  have hablob : blob = a := by
    rw [hleq, List.find?_append, List.find?_eq_none.mpr hl1] at hfind
    have hstep : List.find? (fun b => decide (b.identifier = idf)) (a :: l2) = some a :=
      List.find?_cons_of_pos _ hpa
    rw [hstep] at hfind
    exact (by simpa using hfind : a = blob).symm
  subst hablob
  have hkr : ∀ k, keyRefs st k = keyRefs st2 k +
      (if k ∈ (st.chunkRows.filter (fun r => r.id ∈ blob.chunks)).map (fun r => r.hash)
        then 1 else 0) := by
    intro k
    unfold Doop.keyRefs
    rw [← hrows2, ← hblobs2, herase, hleq]
    rw [List.filter_append, List.length_append, List.filter_append, List.length_append]
    by_cases hk : k ∈ (st.chunkRows.filter (fun r => r.id ∈ blob.chunks)).map (fun r => r.hash)
    · rw [if_pos hk, List.filter_cons, if_pos ((hrefiff k).mpr hk), List.length_cons]
      omega
    · rw [if_neg hk, List.filter_cons, if_neg (fun hc => hk ((hrefiff k).mp hc))]
      omega
  refine ⟨⟨?_, ?_, ?_⟩, ?_, by rw [← hrows2]; exact hrid,
    by rw [← hrows2, ← hnext2]; exact hridlt, by rw [← hrows2]; exact hrhash, ?_⟩
  · rw [← hkv2]
    exact (deleteBatch_keys_nodup _ st.kv hsk hrk).1
  · intro k
    by_cases hk : k ∈ (st.chunkRows.filter (fun r => r.id ∈ blob.chunks)).map (fun r => r.hash)
    · have hpos : 0 < keyRefs st k := by rw [hkr k, if_pos hk]; omega
      have hmem1 : dictMem st.kv.store k = true := (hmemiff k).mpr hpos
      have hrck := hrc k
      by_cases hone : keyRefs st k = 1
      · have hz : keyRefs st2 k = 0 := by
          have := hkr k
          rw [if_pos hk, hone] at this
          omega
        obtain ⟨hs, _⟩ := (deleteBatch_point _ st.kv k hckd hk hsk hrk hmem1).1
          (by rw [hrck, hone]; norm_num)
        rw [hz]
        unfold dictMem
        rw [← hkv2, hs]
        simp
      · have hpos2 : 0 < keyRefs st2 k := by
          have := hkr k
          rw [if_pos hk] at this
          omega
        obtain ⟨hs, _⟩ := (deleteBatch_point _ st.kv k hckd hk hsk hrk hmem1).2
          (by rw [hrck]; exact_mod_cast fun hc => hone (by exact_mod_cast hc))
        unfold dictMem
        rw [← hkv2, hs]
        unfold dictMem at hmem1
        simp [hmem1, hpos2]
    · have hframe := deleteBatch_frame _ st.kv k hk
      have hsame : keyRefs st2 k = keyRefs st k := by
        have := hkr k
        rw [if_neg hk] at this
        omega
      unfold dictMem
      rw [← hkv2, hframe.1, hsame]
      exact hmemiff k
  · intro k
    by_cases hk : k ∈ (st.chunkRows.filter (fun r => r.id ∈ blob.chunks)).map (fun r => r.hash)
    · have hpos : 0 < keyRefs st k := by rw [hkr k, if_pos hk]; omega
      have hmem1 : dictMem st.kv.store k = true := (hmemiff k).mpr hpos
      have hrck := hrc k
      by_cases hone : keyRefs st k = 1
      · have hz : keyRefs st2 k = 0 := by
          have := hkr k
          rw [if_pos hk, hone] at this
          omega
        obtain ⟨_, hr⟩ := (deleteBatch_point _ st.kv k hckd hk hsk hrk hmem1).1
          (by rw [hrck, hone]; norm_num)
        rw [← hkv2, hr, hz]
        norm_num
      · have heq : keyRefs st k = keyRefs st2 k + 1 := by
          have := hkr k
          rw [if_pos hk] at this
          omega
        obtain ⟨_, hr⟩ := (deleteBatch_point _ st.kv k hckd hk hsk hrk hmem1).2
          (by rw [hrck]; exact_mod_cast fun hc => hone (by exact_mod_cast hc))
        rw [← hkv2, hr, hrck, heq]
        push_cast
        ring
    · have hframe := deleteBatch_frame _ st.kv k hk
      have hsame : keyRefs st2 k = keyRefs st k := by
        have := hkr k
        rw [if_neg hk] at this
        omega
      rw [← hkv2, hframe.2, hsame]
      exact hrc k
  · rw [← hkv2]
    exact (deleteBatch_keys_nodup _ st.kv hsk hrk).2
  · intro b hb cid hcid
    rw [← hblobs2, herase] at hb
    have hbst : b ∈ st.blobs := by
      rw [hleq]
      rcases List.mem_append.mp hb with h | h
      · exact List.mem_append.mpr (Or.inl h)
      · exact List.mem_append.mpr (Or.inr (List.mem_cons_of_mem _ h))
    obtain ⟨r, hr, hrcid⟩ := hbc b hbst cid hcid
    refine ⟨r, ?_, hrcid⟩
    rw [← hrows2]
    exact hr

/-- Claim C3 (amended): in every state reachable by store_blob and
delete_blob calls in which each stored blob's chunk key list is duplicate
free, the key-value backend holds exactly one entry per distinct chunk
(unique keys, present exactly when some live blob references the chunk)
and each key's reference count equals its total occurrences across live
blobs; consequently a delete_blob from such a state leaves every chunk
still referenced by another live blob in place and removes exactly the
chunks whose count reaches zero.  (Without the duplicate-free restriction
the claim is false: see the duplicate-chunk counterexample.) -/
theorem c3_dedup_refcount_invariant_amended
    {κ H : Type} [DecidableEq κ] [DecidableEq H]
    (chunker : Bytes → List (κ × Bytes)) (hashB : Bytes → H) (compress : Bytes → Bytes)
    {st : DoopState κ H}
    (h : ReachableDF chunker hashB compress st) :
    DedupInv st ∧ (∀ idf st2, deleteBlob st idf = .ok st2 → DedupInv st2) := by
  have main : ∀ s : DoopState κ H, ReachableDF chunker hashB compress s →
      DedupInv s ∧ C3Aux s := by
    intro s hs
    induction hs with
    | initial =>
      refine ⟨⟨?_, ?_, ?_⟩, ?_, ?_, ?_, ?_, ?_⟩ <;>
        simp [DoopState.initial, Doop.keyRefs, dictMem, dictGet, rcGet]
    | store hs2 hdf hok ih => exact storeBlob_c3inv _ _ _ ih hdf hok
    | delete hs2 hok ih => exact deleteBlob_c3inv ih hok
  exact ⟨(main st h).1, fun idf st2 hdel => (main st2 (ReachableDF.delete h hdel)).1⟩

theorem c3_dedup_refcount_invariant_amended_witness :
    DedupInv Runs.c2wState ∧
      (∀ idf st2, deleteBlob Runs.c2wState idf = .ok st2 → DedupInv st2) := by
  have hdf : ((Runs.c2wChunker [7, 7]).map Prod.fst).Nodup := by decide
  have hst : storeBlob Runs.c2wChunker (id : Bytes → Bytes) id DoopState.initial
      "b1" [7, 7] = .ok Runs.c2wState := by decide
  exact c3_dedup_refcount_invariant_amended Runs.c2wChunker id id
    (ReachableDF.store ReachableDF.initial hdf hst)

end Snoop
